import Mathlib

/-!
# Verification of the Tweener portfolio-company email-alert pipeline

Shallow embedding of the decision logic of the repository:

* `alert_system.py` — the escalation state machine
  (`get_companies_needing_alerts`, the recording step of `send_alerts`);
* `pipeline/email_processor.py` — company resolution
  (`find_company_by_name`), duplicate-suppressed persistence
  (`save_company_email`), the confidence gate of `_process_single_email`,
  and the aggressive attachment detection of `extract_email_content`;
* `utils/financial_formatter.py` — the value normalizer
  (`parse_currency`, `parse_percentage`, `parse_runway` and the
  matching `format_*` functions);
* `pipeline/financial_extractor.py` / `database/financial_models.py` —
  `save_financial_metrics` over the `FinancialMetrics` row type.

Python `datetime` values are modelled at day granularity as integers
(`timedelta.days` of a difference of two dates is then plain subtraction),
and Python floats are modelled as exact rationals `ℚ`; `re.search` over the
fixed pattern set of the formatter is implemented character by character.
For every pattern in the source the regex quantifiers are such that greedy
matching without backtracking coincides with the regex semantics: a
shortened `\d+` leaves a digit as the next character, which can match none
of `\.`, `\s`, `[MmKk%]`, `[+]` or a letter literal, and a skipped optional
fraction group leaves a dot as the next character with the same property,
so the greedy reading used below is faithful.
-/

namespace Tweener

/-! ## Alert engine (`alert_system.py`) -/

/-- The three values of the `alert_type` column
(`'1_month'`, `'2_month'`, `'3_month_escalation'`). -/
inductive AlertType where
  | one_month
  | two_month
  | three_month_escalation
deriving DecidableEq, Repr

/-- `self.alert_thresholds` from `AlertSystem.__init__`. -/
def alertThresholds : AlertType → Int
  | .one_month => 31
  | .two_month => 62
  | .three_month_escalation => 93

/-- A row of the `companies` table (`database/models.py`), restricted to the
columns the pipeline and the alert engine read or write. -/
structure Company where
  id : Nat
  name : String
  is_tweener_portfolio : Bool
  last_update_date : Option Int := none
deriving DecidableEq, Repr

/-- A row of the `email_updates` table (`database/models.py`); `date` is the
received timestamp in days. -/
structure EmailUpdate where
  company_id : Nat
  sender : String := ""
  subject : String := ""
  body : String := ""
  date : Int
  has_attachments : Bool := false
deriving DecidableEq, Repr

/-- A row of the `alerts` table. -/
structure AlertRow where
  company_id : Nat
  alert_type : AlertType
  resolved : Bool
deriving DecidableEq, Repr

/-- The date of the most recent `EmailUpdate` of a company:
`query(EmailUpdate).filter(company_id == id).order_by(date.desc()).first()`. -/
def latestEmailDate (emails : List EmailUpdate) (cid : Nat) : Option Int :=
  ((emails.filter (fun e => e.company_id = cid)).map (fun e => e.date)).max?

/-- `days_since_last`: `(today - latest_email.date).days`, or the sentinel
`999` when the company has no email update at all. -/
def daysSinceLast (today : Int) (latest : Option Int) : Int :=
  match latest with
  | none => 999
  | some d => today - d

/-- The `alert_type` values of the unresolved alerts of a company:
`query(Alert).filter(company_id == id, resolved == False)`. -/
def existingAlertTypes (alerts : List AlertRow) (cid : Nat) : List AlertType :=
  (alerts.filter (fun a => a.company_id = cid ∧ a.resolved = false)).map
    (fun a => a.alert_type)

/-- The `alerts_needed` if/elif chain of `get_companies_needing_alerts`
(lines 100–108 of `alert_system.py`). -/
def alertsNeeded (days_since_last : Int) (existing_alert_types : List AlertType) :
    List AlertType :=
  if days_since_last ≥ alertThresholds .three_month_escalation then
    if .three_month_escalation ∉ existing_alert_types then [.three_month_escalation]
    else []
  else if days_since_last ≥ alertThresholds .two_month then
    if .two_month ∉ existing_alert_types then [.two_month] else []
  else if days_since_last ≥ alertThresholds .one_month then
    if .one_month ∉ existing_alert_types then [.one_month] else []
  else []

/-- Per-company alert computation of `get_companies_needing_alerts`:
days since the last update together with the needed alert types. -/
def companyAlertInfo (today : Int) (emails : List EmailUpdate)
    (alerts : List AlertRow) (c : Company) : Int × List AlertType :=
  let days := daysSinceLast today (latestEmailDate emails c.id)
  (days, alertsNeeded days (existingAlertTypes alerts c.id))

/-- `get_companies_needing_alerts`: portfolio companies whose needed-alert
list is nonempty, with their day counts and needed alerts. -/
def companiesNeedingAlerts (today : Int) (companies : List Company)
    (emails : List EmailUpdate) (alerts : List AlertRow) :
    List (Company × Int × List AlertType) :=
  (companies.filter (fun c => c.is_tweener_portfolio)).filterMap (fun c =>
    let info := companyAlertInfo today emails alerts c
    if info.2 = [] then none else some (c, info.1, info.2))

/-- The highest alert threshold crossed by a day count, if any
(the spec's derived state: `NONE → DUE_1MO → DUE_2MO → DUE_ESCALATION`). -/
def highestTierCrossed (days : Int) : Option AlertType :=
  if days ≥ alertThresholds .three_month_escalation then some .three_month_escalation
  else if days ≥ alertThresholds .two_month then some .two_month
  else if days ≥ alertThresholds .one_month then some .one_month
  else none

/-- One recording pass of `send_alerts` for a fixed company: alerts needed
are computed from the current unresolved set; when the company has usable
contact emails (`contactsOk`) and the SMTP send succeeds (`sendOk`), each
needed alert is appended as an unresolved `Alert` row. -/
def sendAlertsStep (cid : Nat) (lastUpdate : Option Int) (today : Int)
    (contactsOk sendOk : Bool) (alerts : List AlertRow) : List AlertRow :=
  let needed := alertsNeeded (daysSinceLast today lastUpdate)
    (existingAlertTypes alerts cid)
  if contactsOk then
    alerts ++ (needed.filter (fun _ => sendOk)).map
      (fun t => { company_id := cid, alert_type := t, resolved := false })
  else alerts

/-- Iterated re-runs of the engine for a fixed company with a fixed
last-update timestamp: each run has its own wall-clock date and its own
contact/SMTP outcome. -/
def sendAlertsRuns (cid : Nat) (lastUpdate : Option Int)
    (runs : List (Int × Bool × Bool)) (alerts : List AlertRow) : List AlertRow :=
  runs.foldl (fun st r => sendAlertsStep cid lastUpdate r.1 r.2.1 r.2.2 st) alerts

/-- Number of unresolved alerts of one type recorded for one company. -/
def countUnresolved (alerts : List AlertRow) (cid : Nat) (t : AlertType) : Nat :=
  (alerts.filter (fun a => a.company_id = cid ∧ a.alert_type = t ∧
    a.resolved = false)).length

/-! ### Alert-engine lemmas -/

theorem alertsNeeded_subset_highest (days : Int) (ex : List AlertType) :
    alertsNeeded days ex =
      match highestTierCrossed days with
      | none => []
      | some t => if t ∈ ex then [] else [t] := by
  unfold alertsNeeded highestTierCrossed
  split
  · by_cases h : AlertType.three_month_escalation ∈ ex <;> simp [h]
  · split
    · by_cases h : AlertType.two_month ∈ ex <;> simp [h]
    · split
      · by_cases h : AlertType.one_month ∈ ex <;> simp [h]
      · rfl

theorem alertsNeeded_not_existing {days : Int} {ex : List AlertType} {t : AlertType}
    (h : t ∈ alertsNeeded days ex) : t ∉ ex := by
  unfold alertsNeeded at h
  split at h
  · split at h
    · rename_i hm
      simp only [List.mem_singleton] at h
      exact h ▸ hm
    · simp at h
  · split at h
    · split at h
      · rename_i hm
        simp only [List.mem_singleton] at h
        exact h ▸ hm
      · simp at h
    · split at h
      · split at h
        · rename_i hm
          simp only [List.mem_singleton] at h
          exact h ▸ hm
        · simp at h
      · simp at h

theorem countUnresolved_pos_mem {alerts : List AlertRow} {cid : Nat} {t : AlertType}
    (h : 0 < countUnresolved alerts cid t) : t ∈ existingAlertTypes alerts cid := by
  unfold countUnresolved at h
  unfold existingAlertTypes
  rcases List.exists_mem_of_length_pos h with ⟨a, ha⟩
  rw [List.mem_filter] at ha
  refine List.mem_map.2 ⟨a, List.mem_filter.2 ⟨ha.1, ?_⟩, ?_⟩
  · have := ha.2
    simp only [decide_eq_true_eq] at this ⊢
    exact ⟨this.1, this.2.2⟩
  · have := ha.2
    simp only [decide_eq_true_eq] at this
    exact this.2.1

theorem sendAlertsStep_count (cid : Nat) (lastUpdate : Option Int) (today : Int)
    (contactsOk sendOk : Bool) (alerts : List AlertRow) (t : AlertType) :
    countUnresolved (sendAlertsStep cid lastUpdate today contactsOk sendOk alerts)
        cid t =
      countUnresolved alerts cid t +
        (if t ∈ alertsNeeded (daysSinceLast today lastUpdate)
              (existingAlertTypes alerts cid) ∧ contactsOk = true ∧ sendOk = true
         then 1 else 0) := by
  unfold sendAlertsStep countUnresolved
  cases contactsOk with
  | false => simp
  | true =>
    cases sendOk with
    | false => simp
    | true =>
      by_cases hmem : t ∈ alertsNeeded (daysSinceLast today lastUpdate)
          (existingAlertTypes alerts cid)
      · have hsingle : alertsNeeded (daysSinceLast today lastUpdate)
            (existingAlertTypes alerts cid) = [t] := by
          rw [alertsNeeded_subset_highest] at hmem ⊢
          cases h : highestTierCrossed (daysSinceLast today lastUpdate) with
          | none =>
            rw [h] at hmem
            exact absurd hmem (List.not_mem_nil t)
          | some u =>
            rw [h] at hmem
            have hmem2 : t ∈ (if u ∈ existingAlertTypes alerts cid then
                ([] : List AlertType) else [u]) := hmem
            show (if u ∈ existingAlertTypes alerts cid then
                ([] : List AlertType) else [u]) = [t]
            by_cases hu : u ∈ existingAlertTypes alerts cid
            · rw [if_pos hu] at hmem2
              exact absurd hmem2 (List.not_mem_nil t)
            · rw [if_neg hu] at hmem2
              simp only [List.mem_singleton] at hmem2
              subst hmem2
              rw [if_neg hu]
        rw [hsingle]
        simp [List.filter_append]
      · simp [List.filter_append, hmem]
        exact fun a ha heq => hmem (heq ▸ ha)

theorem sendAlertsStep_le_one (cid : Nat) (lastUpdate : Option Int) (today : Int)
    (contactsOk sendOk : Bool) (alerts : List AlertRow) (t : AlertType)
    (h : countUnresolved alerts cid t ≤ 1) :
    countUnresolved (sendAlertsStep cid lastUpdate today contactsOk sendOk alerts)
        cid t ≤ 1 := by
  rw [sendAlertsStep_count]
  split
  · rename_i hcond
    have hnot := alertsNeeded_not_existing hcond.1
    have hzero : countUnresolved alerts cid t = 0 := by
      by_contra hne
      exact hnot (countUnresolved_pos_mem (Nat.pos_of_ne_zero hne))
    omega
  · omega

theorem sendAlertsStep_frozen (cid : Nat) (lastUpdate : Option Int) (today : Int)
    (contactsOk sendOk : Bool) (alerts : List AlertRow) (t : AlertType)
    (h : 0 < countUnresolved alerts cid t) :
    countUnresolved (sendAlertsStep cid lastUpdate today contactsOk sendOk alerts)
        cid t = countUnresolved alerts cid t ∧
    0 < countUnresolved (sendAlertsStep cid lastUpdate today contactsOk sendOk alerts)
        cid t := by
  have hmem := countUnresolved_pos_mem h
  rw [sendAlertsStep_count]
  have : ¬ (t ∈ alertsNeeded (daysSinceLast today lastUpdate)
      (existingAlertTypes alerts cid) ∧ contactsOk = true ∧ sendOk = true) := by
    intro hc
    exact alertsNeeded_not_existing hc.1 hmem
  rw [if_neg this]
  omega

/-! ## Claims C1, C2, C10 -/

/-- C1 — one run of the alert engine makes newly due only the single highest
crossed tier that has no existing unresolved alert of that type: the needed
list is `[highest crossed tier]` when that tier has no unresolved alert and
`[]` otherwise; in particular a portfolio company silent 100 days with no
prior alerts gets exactly the `3_month_escalation` alert and never the
1-month or 2-month alerts in the same pass. -/
theorem alert_engine_highest_tier_only :
    (∀ (days : Int) (ex : List AlertType),
      alertsNeeded days ex =
        match highestTierCrossed days with
        | none => []
        | some t => if t ∈ ex then [] else [t]) ∧
    alertsNeeded 100 [] = [AlertType.three_month_escalation] ∧
    companiesNeedingAlerts 100 [⟨1, "Acme", true, none⟩] [⟨1, "", "", "", 0, false⟩] [] =
      [(⟨1, "Acme", true, none⟩, 100, [AlertType.three_month_escalation])] := by
  refine ⟨alertsNeeded_subset_highest, by decide, by decide⟩

/-- C2 — at most one unresolved alert per type: for a fixed company with a
fixed last-update timestamp, re-running the engine any number of times
(each run with its own date and contact/SMTP outcome, with no new update
ingested in between) keeps the per-type unresolved count at most one, and
a type that already has an unresolved alert recorded never gains another
row. -/
theorem alert_engine_no_duplicate_unresolved (cid : Nat) (lastUpdate : Option Int)
    (runs : List (Int × Bool × Bool)) (alerts : List AlertRow) (t : AlertType)
    (h : countUnresolved alerts cid t ≤ 1) :
    countUnresolved (sendAlertsRuns cid lastUpdate runs alerts) cid t ≤ 1 ∧
    (0 < countUnresolved alerts cid t →
      countUnresolved (sendAlertsRuns cid lastUpdate runs alerts) cid t =
        countUnresolved alerts cid t) := by
  induction runs generalizing alerts with
  | nil => exact ⟨h, fun _ => rfl⟩
  | cons r rest ih =>
    have hstep := sendAlertsStep_le_one cid lastUpdate r.1 r.2.1 r.2.2 alerts t h
    refine ⟨(ih _ hstep).1, fun hpos => ?_⟩
    have hfr := sendAlertsStep_frozen cid lastUpdate r.1 r.2.1 r.2.2 alerts t hpos
    have := (ih _ hstep).2 hfr.2
    unfold sendAlertsRuns at this ⊢
    simp only [List.foldl_cons]
    rw [this, hfr.1]

/-- Witness for C2 at a concrete state: one unresolved escalation alert,
three re-runs at growing dates, count stays exactly one. -/
theorem alert_engine_no_duplicate_unresolved_witness :
    countUnresolved (sendAlertsRuns 1 (some 0)
        [(100, true, true), (120, true, true), (150, true, false)]
        [⟨1, .three_month_escalation, false⟩]) 1 .three_month_escalation ≤ 1 ∧
    countUnresolved (sendAlertsRuns 1 (some 0)
        [(100, true, true), (120, true, true), (150, true, false)]
        [⟨1, .three_month_escalation, false⟩]) 1 .three_month_escalation =
      countUnresolved [(⟨1, .three_month_escalation, false⟩ : AlertRow)] 1
        .three_month_escalation :=
  ⟨(alert_engine_no_duplicate_unresolved 1 (some 0)
      [(100, true, true), (120, true, true), (150, true, false)]
      [⟨1, .three_month_escalation, false⟩] .three_month_escalation
      (by decide)).1,
   (alert_engine_no_duplicate_unresolved 1 (some 0)
      [(100, true, true), (120, true, true), (150, true, false)]
      [⟨1, .three_month_escalation, false⟩] .three_month_escalation
      (by decide)).2 (by decide)⟩

/-- C10 — a portfolio company with no ingested update at all is assigned the
fixed sentinel 999 as its days-since-last-update (not a value derived from
any stored timestamp) and, absent an existing unresolved escalation alert,
is immediately due exactly the `3_month_escalation` alert, skipping the
1-month and 2-month tiers. -/
theorem alert_engine_no_update_sentinel (today : Int) (companies : List Company)
    (emails : List EmailUpdate) (alerts : List AlertRow) (c : Company)
    (hc : c ∈ companies) (hp : c.is_tweener_portfolio = true)
    (hnoemail : latestEmailDate emails c.id = none)
    (hnoesc : AlertType.three_month_escalation ∉ existingAlertTypes alerts c.id) :
    daysSinceLast today (latestEmailDate emails c.id) = 999 ∧
    companyAlertInfo today emails alerts c =
      (999, [AlertType.three_month_escalation]) ∧
    (c, 999, [AlertType.three_month_escalation]) ∈
      companiesNeedingAlerts today companies emails alerts := by
  have hdays : daysSinceLast today (latestEmailDate emails c.id) = 999 := by
    rw [hnoemail]; rfl
  have hneeded : alertsNeeded 999 (existingAlertTypes alerts c.id) =
      [AlertType.three_month_escalation] := by
    unfold alertsNeeded
    rw [if_pos (by norm_num [alertThresholds]), if_pos hnoesc]
  have hinfo : companyAlertInfo today emails alerts c =
      (999, [AlertType.three_month_escalation]) := by
    unfold companyAlertInfo
    rw [hnoemail]
    show ((999 : Int), alertsNeeded 999 (existingAlertTypes alerts c.id)) = _
    rw [hneeded]
  refine ⟨hdays, hinfo, ?_⟩
  unfold companiesNeedingAlerts
  refine List.mem_filterMap.2 ⟨c, List.mem_filter.2 ⟨hc, by simp [hp]⟩, ?_⟩
  rw [hinfo]
  simp

/-- Witness for C10: a portfolio company with no email rows at all. -/
theorem alert_engine_no_update_sentinel_witness :
    daysSinceLast 50 (latestEmailDate [⟨2, "", "", "", 40, false⟩] 1) = 999 ∧
    companyAlertInfo 50 [⟨2, "", "", "", 40, false⟩] [⟨2, .one_month, false⟩] ⟨1, "Quiet", true, none⟩ =
      (999, [AlertType.three_month_escalation]) ∧
    ((⟨1, "Quiet", true, none⟩ : Company), (999 : Int),
        [AlertType.three_month_escalation]) ∈
      companiesNeedingAlerts 50 [⟨1, "Quiet", true, none⟩] [⟨2, "", "", "", 40, false⟩]
        [⟨2, .one_month, false⟩] :=
  alert_engine_no_update_sentinel 50 [⟨1, "Quiet", true, none⟩] [⟨2, "", "", "", 40, false⟩]
    [⟨2, .one_month, false⟩] ⟨1, "Quiet", true, none⟩ (by decide) (by decide)
    (by decide) (by decide)


/-! ## String helpers shared by the pipeline embedding

Python semantics modelled character by character: `str.lower`, `str.strip`,
substring containment (the `in` operator), and the word-boundary legal-suffix
removal `re.sub(r'\b(inc|llc|corp|corporation|ltd)\b\.?', '', s)` used by
`find_company_by_name`. -/

/-- Python whitespace for `str.strip` and the regex class `\s`. -/
def isSpaceC (c : Char) : Bool :=
  c = ' ' ∨ c = '\t' ∨ c = '\n' ∨ c = '\r' ∨ c = '\x0b' ∨ c = '\x0c'

/-- `str.strip()`. -/
def pstrip (cs : List Char) : List Char :=
  ((cs.dropWhile isSpaceC).reverse.dropWhile isSpaceC).reverse

/-- `str.lower()` (ASCII). -/
def pyLower (cs : List Char) : List Char := cs.map Char.toLower

/-- Python substring containment `w in cs` (true for the empty `w`). -/
def containsSub (w : List Char) : List Char → Bool
  | [] => w.isEmpty
  | c :: cs => w.isPrefixOf (c :: cs) || containsSub w cs

/-- The regex word class `\w` (ASCII input). -/
def isWordC (c : Char) : Bool := c.isAlpha || c.isDigit || c = '_'

/-- Zero-width `\b` after a match: next character absent or not a word char. -/
def boundaryAfter : List Char → Bool
  | [] => true
  | c :: _ => !(isWordC c)

/-- One alternative of `(inc|llc|corp|corporation|ltd)\b\.?`: match the word
literally, require the trailing `\b`, consume an optional trailing period;
returns the remainder after the whole match. -/
def trySuffixWord (w : List Char) (cs : List Char) : Option (List Char) :=
  if w.isPrefixOf cs ∧ boundaryAfter (cs.drop w.length) then
    some (match cs.drop w.length with
          | '.' :: r => r
          | r => r)
  else none

/-- The alternation, in the order written in the source pattern (the regex
engine tries `corp` before `corporation` and falls through to the longer
word when the trailing `\b` fails after `corp`). -/
def suffixAltAt (cs : List Char) : Option (List Char) :=
  match trySuffixWord "inc".toList cs with
  | some r => some r
  | none =>
    match trySuffixWord "llc".toList cs with
    | some r => some r
    | none =>
      match trySuffixWord "corp".toList cs with
      | some r => some r
      | none =>
        match trySuffixWord "corporation".toList cs with
        | some r => some r
        | none => trySuffixWord "ltd".toList cs

/-- Scanner of `re.sub(r'\b(inc|llc|corp|corporation|ltd)\b\.?', '', s)`:
`prevWord` tells whether the previous character of the original string was a
word character (so `\b` holds before the current position exactly when it is
false, the alternatives all starting with a letter).  After a removal the
scan continues right after the matched span; the continuation flag can be
taken as `false` because when the span did not end in a period the next
character fails `\b` anyway and no alternative can start there.  `fuel`
(instantiated with the string length, an upper bound on the number of steps,
each step consuming at least one character) keeps the recursion structural. -/
def stripLegalGo : Nat → Bool → List Char → List Char
  | 0, _, cs => cs
  | _ + 1, _, [] => []
  | fuel + 1, prevWord, c :: rest =>
    if prevWord then c :: stripLegalGo fuel (isWordC c) rest
    else
      match suffixAltAt (c :: rest) with
      | some r => stripLegalGo fuel false r
      | none => c :: stripLegalGo fuel (isWordC c) rest

/-- `re.sub(r'\b(inc|llc|corp|corporation|ltd)\b\.?', '', s)`. -/
def stripLegalSuffixes (cs : List Char) : List Char :=
  stripLegalGo cs.length false cs

/-- `clean_name = company_name.lower().strip()` followed by
`re.sub(legal suffixes).strip()` — applied to the candidate and, in tiers 2
and 3, to each stored name. -/
def cleanCompanyName (name : String) : List Char :=
  pstrip (stripLegalSuffixes (pstrip (pyLower name.toList)))

/-- `find_company_by_name` (`pipeline/email_processor.py`): the four match
tiers in order, first hit (in registry order) winning. -/
def find_company_by_name (company_name : String) (companies : List Company) :
    Option Company :=
  if company_name = "" then none
  else
    let clean_name := cleanCompanyName company_name
    match companies.find? (fun comp => pyLower comp.name.toList = clean_name) with
    | some comp => some comp
    | none =>
      match companies.find? (fun comp => cleanCompanyName comp.name = clean_name) with
      | some comp => some comp
      | none =>
        match companies.find? (fun comp =>
            containsSub clean_name (cleanCompanyName comp.name) ||
            containsSub (cleanCompanyName comp.name) clean_name) with
        | some comp => some comp
        | none =>
          companies.find? (fun comp =>
            containsSub (pyLower company_name.toList) (pyLower comp.name.toList) ||
            containsSub (pyLower comp.name.toList) (pyLower company_name.toList))

/-! ## Ingestion persistence (`save_company_email`, `_process_single_email`) -/

/-- The fields of `extract_email_content` consumed by the persistence path
(attachment payloads are written to disk by `save_attachment` and are outside
the relational model). -/
structure EmailContent where
  subject : String
  body : String
  date : Int
  has_attachments : Bool
deriving DecidableEq, Repr

/-- The fields of the parsed Claude JSON (`analyze_with_claude`) consumed by
`_process_single_email` and `save_company_email`; `is_portfolio_company`
carries its Python default `True`, `original_sender` falls back to the
forwarder at use site. -/
structure Analysis where
  company_name : String
  is_portfolio_company : Bool := true
  original_sender : Option String := none
  is_company_update : Bool
  confidence : ℚ
deriving DecidableEq, Repr

/-- The relational store of the ingestion path. -/
structure DB where
  companies : List Company
  updates : List EmailUpdate
deriving DecidableEq, Repr

/-- The autoincrement id `session.flush()` assigns to a freshly added company. -/
def freshCompanyId (db : DB) : Nat :=
  (db.companies.map (fun c => c.id)).foldr max 0 + 1

/-- `save_company_email`: resolve or create the company, suppress duplicates
by `(company_id, subject, date)`, otherwise persist the `EmailUpdate` row and
refresh `last_update_date`.  In-session mutations (the portfolio-flag upgrade
of an existing company, the pending fresh company row) are modelled as
applied; the duplicate path returns `false` with the `updates` table
untouched. -/
def save_company_email (db : DB) (content : EmailContent) (analysis : Analysis)
    (forwarder : String) : DB × Bool :=
  match find_company_by_name analysis.company_name db.companies with
  | none =>
    let cid := freshCompanyId db
    let companies2 := db.companies ++
      [⟨cid, analysis.company_name, analysis.is_portfolio_company,
        some content.date⟩]
    if db.updates.any (fun u => u.company_id = cid ∧
        u.subject = content.subject ∧ u.date = content.date) then
      ({ companies := companies2, updates := db.updates }, false)
    else
      ({ companies := (companies2.map (fun comp =>
            if comp.id = cid then { comp with last_update_date := some content.date }
            else comp)),
         updates := db.updates ++
           [⟨cid, (analysis.original_sender.getD forwarder), content.subject,
             content.body, content.date, content.has_attachments⟩] }, true)
  | some c =>
    let companies2 := db.companies.map (fun comp =>
      if comp.id = c.id ∧ analysis.is_portfolio_company = true ∧
          comp.is_tweener_portfolio = false then
        { comp with is_tweener_portfolio := true }
      else comp)
    if db.updates.any (fun u => u.company_id = c.id ∧
        u.subject = content.subject ∧ u.date = content.date) then
      ({ companies := companies2, updates := db.updates }, false)
    else
      ({ companies := (companies2.map (fun comp =>
            if comp.id = c.id then { comp with last_update_date := some content.date }
            else comp)),
         updates := db.updates ++
           [⟨c.id, (analysis.original_sender.getD forwarder), content.subject,
             content.body, content.date, content.has_attachments⟩] }, true)

/-- `CLAUDE_CONFIDENCE_THRESHOLD = 0.7` of `pipeline/config.py`; the
processor compares against the same literal `0.7` (built with `mkRat` so
that concrete runs reduce in the kernel; `threshold_value` below identifies
it with `7/10`). -/
def CLAUDE_CONFIDENCE_THRESHOLD : ℚ := mkRat 7 10

theorem threshold_value : CLAUDE_CONFIDENCE_THRESHOLD = 7/10 := by
  unfold CLAUDE_CONFIDENCE_THRESHOLD
  rw [Rat.mkRat_eq_div]
  norm_num

/-- The decision of `_process_single_email`: a failed analysis returns
`False`; otherwise the update is persisted exactly when
`analysis.get('is_company_update')` is truthy and
`analysis.get('confidence', 0) > 0.7` (strict comparison in the source). -/
def processSingleEmail (db : DB) (content : EmailContent)
    (analysis : Option Analysis) (forwarder : String) : DB × Bool :=
  match analysis with
  | none => (db, false)
  | some a =>
    if a.is_company_update = true ∧ a.confidence > CLAUDE_CONFIDENCE_THRESHOLD then
      save_company_email db content a forwarder
    else (db, false)

/-! ## Claims C7, C3, C5 -/

/-- C7 counterexample — tier 1 is not a match against the stored name
before suffix stripping: the candidate is lowercased and suffix-stripped
first, so with both `Acme` and `Acme Inc.` in the registry the candidate
`Acme Inc.` (equal to a stored name up to case) resolves to `Acme`
instead. -/
theorem resolver_tier1_counterexample :
    (∃ c ∈ [(⟨1, "Acme", true, none⟩ : Company), ⟨2, "Acme Inc.", true, none⟩],
      pyLower c.name.toList = pyLower "Acme Inc.".toList) ∧
    find_company_by_name "Acme Inc."
        [⟨1, "Acme", true, none⟩, ⟨2, "Acme Inc.", true, none⟩] =
      some ⟨1, "Acme", true, none⟩ ∧
    pyLower (Company.name ⟨1, "Acme", true, none⟩).toList ≠
      pyLower "Acme Inc.".toList := by
  decide

/-- C7 (amended) — the resolver tries its four tiers in order with the first
hit winning, and tier 1 compares each stored name, lowercased as-is, against
the candidate lowercased, legal-suffix-stripped and stripped: whenever some
registry entry matches that tier-1 test, the first such entry is returned;
the spec example still resolves — candidate `ACME` against stored
`Acme Inc.` returns the Acme row (via the suffix-stripped exact tier). -/
theorem resolver_tier1_semantics (company_name : String)
    (companies : List Company) (c : Company) (hne : company_name ≠ "")
    (hfind : companies.find?
        (fun comp => pyLower comp.name.toList = cleanCompanyName company_name) =
      some c) :
    find_company_by_name company_name companies = some c ∧
    find_company_by_name "ACME" [⟨3, "Acme Inc.", true, none⟩] =
      some ⟨3, "Acme Inc.", true, none⟩ := by
  constructor
  · unfold find_company_by_name
    rw [if_neg hne]
    simp only [hfind]
  · decide

/-- Witness for C7 (amended): candidate `ACME NC` tier-1-matches stored
`acme nc` even though another row equals its suffix-stripped form. -/
theorem resolver_tier1_semantics_witness :
    find_company_by_name "Stride"
        [⟨4, "stride", true, none⟩, ⟨5, "Stride Inc", true, none⟩] =
      some ⟨4, "stride", true, none⟩ ∧
    find_company_by_name "ACME" [⟨3, "Acme Inc.", true, none⟩] =
      some ⟨3, "Acme Inc.", true, none⟩ :=
  resolver_tier1_semantics "Stride"
    [⟨4, "stride", true, none⟩, ⟨5, "Stride Inc", true, none⟩]
    ⟨4, "stride", true, none⟩ (by decide) (by decide)

/-- C3 — idempotent ingestion under the uniqueness key: when the classified
company resolves to `c` and an `EmailUpdate` row with the same
`(company_id, subject, date)` is already persisted, `save_company_email`
creates no second row and reports no new row. -/
theorem ingestion_idempotent (db : DB) (content : EmailContent)
    (analysis : Analysis) (forwarder : String) (c : Company)
    (hfound : find_company_by_name analysis.company_name db.companies = some c)
    (hdup : ∃ u ∈ db.updates, u.company_id = c.id ∧
      u.subject = content.subject ∧ u.date = content.date) :
    (save_company_email db content analysis forwarder).1.updates = db.updates ∧
    (save_company_email db content analysis forwarder).2 = false := by
  unfold save_company_email
  simp only [hfound]
  have hany : db.updates.any (fun u => u.company_id = c.id ∧
      u.subject = content.subject ∧ u.date = content.date) = true := by
    rcases hdup with ⟨u, hu, h1, h2, h3⟩
    exact List.any_eq_true.2 ⟨u, hu, by simp [h1, h2, h3]⟩
  rw [if_pos hany]
  exact ⟨rfl, rfl⟩

/-- Witness for C3: re-processing a message equal to a persisted row. -/
theorem ingestion_idempotent_witness :
    (save_company_email
        ⟨[⟨1, "Acme", true, some 5⟩], [⟨1, "a@b.c", "May update", "hi", 5, false⟩]⟩
        ⟨"May update", "hi", 5, false⟩
        { company_name := "Acme", is_company_update := true, confidence := 9/10 }
        "scot@tweenerfund.com").1.updates =
      [⟨1, "a@b.c", "May update", "hi", 5, false⟩] ∧
    (save_company_email
        ⟨[⟨1, "Acme", true, some 5⟩], [⟨1, "a@b.c", "May update", "hi", 5, false⟩]⟩
        ⟨"May update", "hi", 5, false⟩
        { company_name := "Acme", is_company_update := true, confidence := 9/10 }
        "scot@tweenerfund.com").2 = false :=
  ingestion_idempotent
    ⟨[⟨1, "Acme", true, some 5⟩], [⟨1, "a@b.c", "May update", "hi", 5, false⟩]⟩
    ⟨"May update", "hi", 5, false⟩
    { company_name := "Acme", is_company_update := true, confidence := 9/10 }
    "scot@tweenerfund.com" ⟨1, "Acme", true, some 5⟩ (by decide)
    ⟨⟨1, "a@b.c", "May update", "hi", 5, false⟩, by decide, by decide, by decide,
      by decide⟩

/-- C5 counterexample — at confidence exactly 0.7 the update is discarded,
not saved: the source gate is the strict `confidence > 0.7`, so a company
update reported at the configured threshold 0.7 creates no `Update` row, in
contradiction with "at or above 0.7 it is saved". -/
theorem confidence_gate_counterexample :
    (mkRat 7 10 : ℚ) ≥ 7/10 ∧
    processSingleEmail ⟨[⟨1, "Acme", true, none⟩], []⟩ ⟨"s", "b", 3, false⟩
        (some { company_name := "Acme", is_company_update := true,
                confidence := mkRat 7 10 }) "fwd" =
      (⟨[⟨1, "Acme", true, none⟩], []⟩, false) := by
  constructor
  · rw [Rat.mkRat_eq_div]; norm_num
  · decide

/-- C5 (amended) — a classified company update is persisted iff its reported
confidence is strictly greater than the configured threshold 0.7: at or
below 0.7 (and equally when the oracle returns no result) no `Update` row is
created and the outcome is the same `(db, false)`; strictly above 0.7 the
update is handed to `save_company_email`. -/
theorem confidence_gate (db : DB) (content : EmailContent) (a : Analysis)
    (forwarder : String) :
    CLAUDE_CONFIDENCE_THRESHOLD = 7/10 ∧
    (¬ (a.is_company_update = true ∧ a.confidence > 7/10) →
      processSingleEmail db content (some a) forwarder = (db, false) ∧
      processSingleEmail db content (some a) forwarder =
        processSingleEmail db content none forwarder) ∧
    (a.is_company_update = true → a.confidence > 7/10 →
      processSingleEmail db content (some a) forwarder =
        save_company_email db content a forwarder) := by
  refine ⟨threshold_value, ?_, ?_⟩
  · intro hnot
    simp only [processSingleEmail]
    rw [if_neg (by rw [threshold_value]; exact hnot)]
    exact ⟨rfl, rfl⟩
  · intro h1 h2
    rw [← threshold_value] at h2
    simp only [processSingleEmail]
    rw [if_pos ⟨h1, h2⟩]

/-- Witness for C5 (amended): confidence 0.4 is discarded like a missing
result; confidence 0.8 reaches the save path. -/
theorem confidence_gate_witness :
    (processSingleEmail ⟨[], []⟩ ⟨"s", "b", 3, false⟩
        (some { company_name := "Acme", is_company_update := true,
                confidence := 2/5 }) "fwd" = (⟨[], []⟩, false) ∧
      processSingleEmail ⟨[], []⟩ ⟨"s", "b", 3, false⟩
          (some { company_name := "Acme", is_company_update := true,
                  confidence := 2/5 }) "fwd" =
        processSingleEmail ⟨[], []⟩ ⟨"s", "b", 3, false⟩ none "fwd") ∧
    processSingleEmail ⟨[], []⟩ ⟨"s", "b", 3, false⟩
        (some { company_name := "Acme", is_company_update := true,
                confidence := 4/5 }) "fwd" =
      save_company_email ⟨[], []⟩ ⟨"s", "b", 3, false⟩
        { company_name := "Acme", is_company_update := true, confidence := 4/5 }
        "fwd" :=
  ⟨(confidence_gate ⟨[], []⟩ ⟨"s", "b", 3, false⟩
      { company_name := "Acme", is_company_update := true, confidence := 2/5 }
      "fwd").2.1 (by norm_num),
   (confidence_gate ⟨[], []⟩ ⟨"s", "b", 3, false⟩
      { company_name := "Acme", is_company_update := true, confidence := 4/5 }
      "fwd").2.2 rfl (by norm_num)⟩


/-! ## Decimal digit strings (shared by the attachment namer and the
value-normalizer embedding) -/

/-- The character of a decimal digit. -/
def digitChar (d : Nat) : Char := Char.ofNat (48 + d)

/-- Big-endian digits of a natural number, accumulator style; `fuel` bounds
the number of divisions (any `fuel ≥ n` is exact) and keeps the recursion
structural, hence kernel-reducible. -/
def digitsAux : Nat → Nat → List Char → List Char
  | 0, _, acc => acc
  | fuel + 1, n, acc =>
    if n = 0 then acc
    else digitsAux fuel (n / 10) (digitChar (n % 10) :: acc)

/-- Decimal representation of a natural number, as Python prints it. -/
def digitsOfNat (n : Nat) : List Char :=
  if n = 0 then ['0'] else digitsAux n n []

/-! ## Attachment classifier (`extract_email_content`,
`pipeline/email_processor.py`)

One walked message part, as the loop reads it.  `disposition_attachment`
is `part.get_content_disposition() == 'attachment'`; `content_disposition`
is `str(part.get("Content-Disposition", ""))`; `filename` is
`part.get_filename()` (`none` models Python `None`).  Body extraction from
non-attachment parts is independent of the attachment state and is not
modelled; `decode_header` is modelled for plain (non-RFC-2047-encoded)
filenames, where it returns the string unchanged. -/
structure MessagePart where
  content_type : String
  content_disposition : String
  disposition_attachment : Bool
  filename : Option String
  transfer_encoding : Option String
deriving DecidableEq, Repr

/-- A recorded attachment (`detection_method` is always `'aggressive'` on
this path and is omitted; the raw part payload lives outside the model). -/
structure AttachmentRecord where
  filename : String
  content_type : String
deriving DecidableEq, Repr

/-- The `attachment_content_types` allow-list. -/
def attachmentContentTypes : List String :=
  ["application/pdf",
   "application/vnd.ms-excel",
   "application/vnd.openxmlformats-officedocument.spreadsheetml.sheet",
   "application/vnd.ms-powerpoint",
   "application/vnd.openxmlformats-officedocument.presentationml.presentation",
   "application/msword",
   "application/vnd.openxmlformats-officedocument.wordprocessingml.document",
   "application/zip",
   "application/x-zip-compressed",
   "application/octet-stream",
   "image/jpeg",
   "image/png",
   "image/gif",
   "image/tiff",
   "text/csv"]

/-- The document/image extensions of detection method 5. -/
def fileExtensions : List String :=
  [".pdf", ".xlsx", ".xls", ".pptx", ".ppt", ".docx", ".doc",
   ".csv", ".zip", ".png", ".jpg", ".jpeg", ".gif", ".tiff"]

/-- Python truthiness of `filename` (`None` and the empty string falsy). -/
def fnameTruthy (p : MessagePart) : Bool :=
  match p.filename with
  | some f => f != ""
  | none => false

/-- `filename and filename.strip()` of detection method 3. -/
def fnameTruthyStrip (p : MessagePart) : Bool :=
  match p.filename with
  | some f => (f != "") && (pstrip f.toList != [])
  | none => false

/-- The six-signal elif chain (`AGGRESSIVE ATTACHMENT DETECTION`).  Method 5
consumes its elif branch even when the extension test inside it fails, so
method 6 is then never evaluated — exactly as in the source. -/
def isAttachmentPart (p : MessagePart) : Bool :=
  if p.disposition_attachment then true
  else if containsSub "attachment".toList (pyLower p.content_disposition.toList)
    then true
  else if fnameTruthyStrip p then true
  else if attachmentContentTypes.contains p.content_type then true
  else if (p.content_disposition != "") &&
      containsSub "inline".toList (pyLower p.content_disposition.toList) &&
      fnameTruthy p then
    match p.filename with
    | some f => fileExtensions.any (fun ext => ext.toList.isSuffixOf (pyLower f.toList))
    | none => false
  else if ("application/".toList.isPrefixOf p.content_type.toList) &&
      (p.transfer_encoding == some "base64") then true
  else false

/-- Characters excluded by the capture class `[^"\';\r\n]` (the apostrophe
written as character 39). -/
def isBadFnameChar (c : Char) : Bool :=
  c = '"' ∨ c = Char.ofNat 39 ∨ c = ';' ∨ c = '\r' ∨ c = '\n'

/-- Both quote characters of `["\']` (also stripped by `.strip('"\'')`). -/
def isQuoteC (c : Char) : Bool := c = '"' ∨ c = Char.ofNat 39

/-- First-match-wins scan of `re.search`: try the matcher at every start
position, leftmost hit winning. -/
def reFirst (m : List Char → Option α) : List Char → Option α
  | [] => m []
  | c :: cs =>
    match m (c :: cs) with
    | some r => some r
    | none => reFirst m cs

/-- Match of `filename[*]?=["\']?([^"\';\r\n]+)` anchored at the current
position.  The optional opening quote is taken greedily; backtracking to the
quote-less reading cannot rescue a failed capture because the quote itself
is in the excluded class, so the greedy reading is exact. -/
def fnameCaptureAt (cs : List Char) : Option (List Char) :=
  if "filename".toList.isPrefixOf cs then
    let r1 := cs.drop 8
    let r2 := if r1.head? = some '*' then r1.tail else r1
    match r2 with
    | '=' :: r3 =>
      let r4 := match r3 with
        | c :: tl => if isQuoteC c then tl else r3
        | [] => r3
      let cap := r4.takeWhile (fun c => !(isBadFnameChar c))
      if cap = [] then none else some cap
    | _ => none
  else none

/-- The filename available to the recording step: the part's own filename
when truthy, otherwise the capture of the `filename=` regex over the
content-disposition header (gated, as in the source, by the literal
substring `filename=`). -/
def effFilename (p : MessagePart) : Option (List Char) :=
  let recover : Option (List Char) :=
    if containsSub "filename=".toList p.content_disposition.toList then
      reFirst fnameCaptureAt p.content_disposition.toList
    else none
  match p.filename with
  | some f => if f = "" then recover else some f.toList
  | none => recover

/-- `.strip('"\'')`. -/
def stripQuotes (cs : List Char) : List Char :=
  ((cs.dropWhile isQuoteC).reverse.dropWhile isQuoteC).reverse

/-- The MIME-type-to-extension table of the synthesized-name path. -/
def extMap : List (String × String) :=
  [("application/pdf", ".pdf"),
   ("application/vnd.ms-excel", ".xls"),
   ("application/vnd.openxmlformats-officedocument.spreadsheetml.sheet", ".xlsx"),
   ("application/vnd.ms-powerpoint", ".ppt"),
   ("application/vnd.openxmlformats-officedocument.presentationml.presentation",
     ".pptx"),
   ("application/msword", ".doc"),
   ("application/vnd.openxmlformats-officedocument.wordprocessingml.document",
     ".docx"),
   ("text/csv", ".csv"),
   ("image/jpeg", ".jpg"),
   ("image/png", ".png")]

/-- `attachment_<len(attachments)+1><ext>`, defaulting to `.bin`. -/
def synthFilename (content_type : String) (count : Nat) : List Char :=
  let ext := (((extMap.find? (fun kv => kv.1 = content_type)).map
    (fun kv => kv.2)).getD ".bin")
  "attachment_".toList ++ digitsOfNat (count + 1) ++ ext.toList

/-- The recording step for one part already flagged as an attachment: when a
truthy filename is available (directly or recovered from the header) it is
cleaned (`.strip().strip('"\'')`), replaced by a synthesized
`attachment_<n>.<ext>` name when the cleaning leaves it empty, and appended;
when no filename is available the part is not appended. -/
def processAttachmentPart (acc : List AttachmentRecord) (p : MessagePart) :
    List AttachmentRecord :=
  match effFilename p with
  | none => acc
  | some f =>
    let cleaned := stripQuotes (pstrip f)
    let final := if cleaned = [] then synthFilename p.content_type acc.length
      else cleaned
    acc ++ [⟨String.mk final, p.content_type⟩]

/-- The attachment-relevant state of the multipart loop of
`extract_email_content`: the accumulated attachment list and the
`has_attachments` flag (set by every flagged part, recorded or not). -/
def detectAttachments (parts : List MessagePart) :
    List AttachmentRecord × Bool :=
  parts.foldl (fun st p =>
    if isAttachmentPart p then (processAttachmentPart st.1 p, true) else st)
    ([], false)

/-! ## Claim C9 -/

/-- C9 counterexample — a part flagged by the content-type allow-list
(signal 4) that carries no filename and whose content-disposition header
offers none is *not* recorded: the attachment list stays empty (while
`has_attachments` is still set), instead of the claimed synthesized
`attachment_1.pdf` entry. -/
theorem attachment_no_filename_counterexample :
    isAttachmentPart ⟨"application/pdf", "", false, none, none⟩ = true ∧
    detectAttachments [⟨"application/pdf", "", false, none, none⟩] =
      ([], true) := by
  decide

/-- C9 (amended) — a flagged part is recorded iff a truthy filename is
available on the part or recoverable via the `filename=` capture from its
content-disposition header: with no such filename the part is silently
dropped from the attachment list (only `has_attachments` is set); when the
available filename cleans to empty, the synthesized
`attachment_<n>.<ext>` name (defaulting to `.bin`) is used; otherwise the
cleaned filename is recorded.  In particular a flagged PDF part whose
filename parameter is the empty quoted string is recorded as
`attachment_1.pdf`, and an unknown application type defaults to
`attachment_1.bin`. -/
theorem attachment_filename_policy (p : MessagePart)
    (acc : List AttachmentRecord) (hflag : isAttachmentPart p = true) :
    (effFilename p = none →
      processAttachmentPart acc p = acc ∧ detectAttachments [p] = ([], true)) ∧
    (∀ f, effFilename p = some f → stripQuotes (pstrip f) = [] →
      processAttachmentPart acc p =
        acc ++ [⟨String.mk (synthFilename p.content_type acc.length),
          p.content_type⟩]) ∧
    (∀ f, effFilename p = some f → stripQuotes (pstrip f) ≠ [] →
      processAttachmentPart acc p =
        acc ++ [⟨String.mk (stripQuotes (pstrip f)), p.content_type⟩]) ∧
    detectAttachments
        [⟨"application/pdf", "attachment; filename=\"\"", true, some "\"\"",
          none⟩] =
      ([⟨"attachment_1.pdf", "application/pdf"⟩], true) ∧
    detectAttachments
        [⟨"application/x-unknown", "attachment", true, some "\"\"", none⟩] =
      ([⟨"attachment_1.bin", "application/x-unknown"⟩], true) ∧
    detectAttachments
        [⟨"application/pdf", "attachment; filename=\"report.pdf\"", true,
          some "report.pdf", none⟩] =
      ([⟨"report.pdf", "application/pdf"⟩], true) := by
  refine ⟨?_, ?_, ?_, by decide, by decide, by decide⟩
  · intro hnone
    unfold processAttachmentPart
    rw [hnone]
    refine ⟨rfl, ?_⟩
    unfold detectAttachments
    simp only [List.foldl_cons, List.foldl_nil, if_pos hflag]
    unfold processAttachmentPart
    rw [hnone]
  · intro f hf hempty
    unfold processAttachmentPart
    rw [hf]
    simp [hempty]
  · intro f hf hne
    unfold processAttachmentPart
    rw [hf]
    simp only [if_neg hne]

/-- Witness for C9 (amended): a flagged part with no recoverable filename
is dropped while the flag is still set. -/
theorem attachment_filename_policy_witness :
    processAttachmentPart [] ⟨"application/pdf", "", false, none, none⟩ = [] ∧
    detectAttachments [⟨"application/pdf", "", false, none, none⟩] =
      ([], true) :=
  (attachment_filename_policy ⟨"application/pdf", "", false, none, none⟩ []
    (by decide)).1 (by decide)


/-! ## Value normalizer (`utils/financial_formatter.py`)

Python floats are modelled as exact rationals.  All rational arithmetic is
expressed through `mkRat`-based helpers (`qadd`, `qmulN`, `qdivN`,
`qfloor`) so that concrete runs reduce in the kernel; the bridge lemmas
`qadd_eq`, `qmulN_eq`, `qdivN_eq`, `qfloor_eq` identify them with the
standard field operations.  Decimal rounding of the `:.1f` / `:.0f` format
specifiers is round-half-to-even, the tie-breaking Python uses (ties are
exact here because the binary-float detour is not modelled). -/

/-- Numerically `a + b`, built with `mkRat`. -/
def qadd (a b : ℚ) : ℚ :=
  mkRat (a.num * (b.den : ℤ) + b.num * (a.den : ℤ)) (a.den * b.den)

/-- Numerically `a * n`, built with `mkRat`. -/
def qmulN (a : ℚ) (n : ℕ) : ℚ := mkRat (a.num * (n : ℤ)) a.den

/-- Numerically `a / n`, built with `mkRat`. -/
def qdivN (a : ℚ) (n : ℕ) : ℚ := mkRat a.num (a.den * n)

/-- Numerically `⌊q⌋`. -/
def qfloor (q : ℚ) : ℤ := q.num / (q.den : ℤ)

theorem qadd_eq (a b : ℚ) : qadd a b = a + b := by
  unfold qadd
  rw [Rat.mkRat_eq_div]
  push_cast
  conv_rhs => rw [← Rat.num_div_den a, ← Rat.num_div_den b]
  rw [div_add_div _ _ (Nat.cast_ne_zero.mpr a.den_ne_zero)
    (Nat.cast_ne_zero.mpr b.den_ne_zero)]
  ring_nf

theorem qmulN_eq (a : ℚ) (n : ℕ) : qmulN a n = a * n := by
  unfold qmulN
  rw [Rat.mkRat_eq_div]
  push_cast
  conv_rhs => rw [← Rat.num_div_den a]
  ring

theorem qdivN_eq (a : ℚ) (n : ℕ) : qdivN a n = a / n := by
  unfold qdivN
  rw [Rat.mkRat_eq_div]
  push_cast
  conv_rhs => rw [← Rat.num_div_den a]
  rw [div_div]

theorem qfloor_eq (q : ℚ) : qfloor q = ⌊q⌋ := Rat.floor_def.symm

/-- Value of a captured `\d+` / fraction pair: `intDigits.fracDigits`. -/
def digitVal (c : Char) : ℕ := c.toNat - 48

/-- Numeric value of a big-endian digit string. -/
def natOfDigits (ds : List Char) : ℕ :=
  ds.foldl (fun a c => 10 * a + digitVal c) 0

/-- `float` of a captured integer/fraction digit pair. -/
def numCapToQ (ds fs : List Char) : ℚ :=
  mkRat ((natOfDigits ds * 10 ^ fs.length + natOfDigits fs : ℕ) : ℤ)
    (10 ^ fs.length)

/-- Greedy match of `\d+(?:\.\d+)?` at the current position: the captured
(integer digits, fraction digits) and the rest.  Greediness is exact for
every pattern below (see the header comment). -/
def matchNum (cs : List Char) : Option ((List Char × List Char) × List Char) :=
  let ds := cs.takeWhile Char.isDigit
  if ds = [] then none
  else
    let rest := cs.drop ds.length
    match rest with
    | '.' :: r2 =>
      let fs := r2.takeWhile Char.isDigit
      if fs = [] then some ((ds, []), rest)
      else some ((ds, fs), r2.drop fs.length)
    | _ => some ((ds, []), rest)

/-- The `(?:,\d{3})*` groups: digits collected with the commas dropped
(`x.replace(',', '')` of the converter), and the rest. -/
def takeCommaGroups : List Char → (List Char × List Char)
  | ',' :: a :: b :: c :: r =>
    if a.isDigit && b.isDigit && c.isDigit then
      let p := takeCommaGroups r
      (a :: b :: c :: p.1, p.2)
    else ([], ',' :: a :: b :: c :: r)
  | cs => ([], cs)

/-- Greedy match of `\d+(?:,\d{3})*(?:\.\d+)?` at the current position. -/
def matchNumCommas (cs : List Char) :
    Option ((List Char × List Char) × List Char) :=
  let ds := cs.takeWhile Char.isDigit
  if ds = [] then none
  else
    let r1 := cs.drop ds.length
    let p := takeCommaGroups r1
    match p.2 with
    | '.' :: r3 =>
      let fs := r3.takeWhile Char.isDigit
      if fs = [] then some ((ds ++ p.1, []), p.2)
      else some ((ds ++ p.1, fs), r3.drop fs.length)
    | _ => some ((ds ++ p.1, []), p.2)

/-- Case-insensitive literal (the pattern word given lowercase), returning
the rest on success — the `re.IGNORECASE` reading of a letter literal. -/
def litCI : List Char → List Char → Option (List Char)
  | [], cs => some cs
  | _ :: _, [] => none
  | w :: ws, c :: cs => if c.toLower = w then litCI ws cs else none

/-- `\s*`. -/
def skipWS (cs : List Char) : List Char := cs.dropWhile isSpaceC

/-- `\$(\d+(?:\.\d+)?)\s*[Mm](?:illion)?` with converter `float(x) * 1000000`
(the optional tail consumes nothing the value depends on). -/
def pat1At (cs : List Char) : Option ℚ :=
  match cs with
  | '$' :: r1 =>
    match matchNum r1 with
    | some (cap, r2) =>
      match skipWS r2 with
      | c :: _ => if c.toLower = 'm' then some (qmulN (numCapToQ cap.1 cap.2) 1000000)
        else none
      | [] => none
    | none => none
  | _ => none

/-- `\$(\d+(?:\.\d+)?)\s*[Kk](?:thousand)?` with converter `float(x) * 1000`. -/
def pat2At (cs : List Char) : Option ℚ :=
  match cs with
  | '$' :: r1 =>
    match matchNum r1 with
    | some (cap, r2) =>
      match skipWS r2 with
      | c :: _ => if c.toLower = 'k' then some (qmulN (numCapToQ cap.1 cap.2) 1000)
        else none
      | [] => none
    | none => none
  | _ => none

/-- `\$(\d+(?:,\d{3})*(?:\.\d+)?)` with converter
`float(x.replace(',', ''))`. -/
def pat3At (cs : List Char) : Option ℚ :=
  match cs with
  | '$' :: r1 =>
    match matchNumCommas r1 with
    | some (cap, _) => some (numCapToQ cap.1 cap.2)
    | none => none
  | _ => none

/-- `(\d+(?:\.\d+)?)\s*[Mm](?:illion)?`. -/
def pat4At (cs : List Char) : Option ℚ :=
  match matchNum cs with
  | some (cap, r2) =>
    match skipWS r2 with
    | c :: _ => if c.toLower = 'm' then some (qmulN (numCapToQ cap.1 cap.2) 1000000)
      else none
    | [] => none
  | none => none

/-- `(\d+(?:\.\d+)?)\s*[Kk](?:thousand)?`. -/
def pat5At (cs : List Char) : Option ℚ :=
  match matchNum cs with
  | some (cap, r2) =>
    match skipWS r2 with
    | c :: _ => if c.toLower = 'k' then some (qmulN (numCapToQ cap.1 cap.2) 1000)
      else none
    | [] => none
  | none => none

/-- `(\d+(?:,\d{3})*(?:\.\d+)?)`. -/
def pat6At (cs : List Char) : Option ℚ :=
  match matchNumCommas cs with
  | some (cap, _) => some (numCapToQ cap.1 cap.2)
  | none => none

/-- `([+-]?\d+(?:\.\d+)?)\s*%` with converter `float(x)` (the sign is part
of the capture). -/
def patPct1At (cs : List Char) : Option ℚ :=
  let sr : Bool × List Char :=
    match cs with
    | '+' :: r => (false, r)
    | '-' :: r => (true, r)
    | _ => (false, cs)
  match matchNum sr.2 with
  | some (cap, r1) =>
    match skipWS r1 with
    | '%' :: _ =>
      some (if sr.1 then -(numCapToQ cap.1 cap.2) else numCapToQ cap.1 cap.2)
    | _ => none
  | none => none

/-- `([+-]?\d+(?:\.\d+)?)\s*percent` (case-insensitive). -/
def patPct2At (cs : List Char) : Option ℚ :=
  let sr : Bool × List Char :=
    match cs with
    | '+' :: r => (false, r)
    | '-' :: r => (true, r)
    | _ => (false, cs)
  match matchNum sr.2 with
  | some (cap, r1) =>
    match litCI "percent".toList (skipWS r1) with
    | some _ =>
      some (if sr.1 then -(numCapToQ cap.1 cap.2) else numCapToQ cap.1 cap.2)
    | none => none
  | none => none

/-- `(\d+(?:\.\d+)?)\+?\s*months?` with converter `float(x)` (the optional
trailing `s?` consumes nothing the value depends on). -/
def patMonthsAt (cs : List Char) : Option ℚ :=
  match matchNum cs with
  | some (cap, r1) =>
    let r2 := match r1 with
      | '+' :: r => r
      | _ => r1
    match litCI "month".toList (skipWS r2) with
    | some _ => some (numCapToQ cap.1 cap.2)
    | none => none
  | none => none

/-- `(\d+(?:\.\d+)?)\+?\s*years?` with converter `float(x) * 12`. -/
def patYearsAt (cs : List Char) : Option ℚ :=
  match matchNum cs with
  | some (cap, r1) =>
    let r2 := match r1 with
      | '+' :: r => r
      | _ => r1
    match litCI "year".toList (skipWS r2) with
    | some _ => some (qmulN (numCapToQ cap.1 cap.2) 12)
    | none => none
  | none => none

/-- Scanner of `re.sub(r'^~|approximately|about|around', '',
value_str, flags=re.IGNORECASE)`: `^~` applies only at position zero, the
three words anywhere (their first letters keep the alternatives disjoint);
`fuel` (instantiated with the length) keeps the recursion structural. -/
def removeQualifiersGo : Nat → Bool → List Char → List Char
  | 0, _, cs => cs
  | _ + 1, _, [] => []
  | fuel + 1, atStart, c :: rest =>
    if atStart && (c = '~') then removeQualifiersGo fuel false rest
    else
      match litCI "approximately".toList (c :: rest) with
      | some r => removeQualifiersGo fuel false r
      | none =>
        match litCI "about".toList (c :: rest) with
        | some r => removeQualifiersGo fuel false r
        | none =>
          match litCI "around".toList (c :: rest) with
          | some r => removeQualifiersGo fuel false r
          | none => c :: removeQualifiersGo fuel false rest

/-- The qualifier-removal `re.sub` of `parse_currency`. -/
def removeQualifiers (cs : List Char) : List Char :=
  removeQualifiersGo cs.length true cs

/-- The loop over `self.currency_patterns`: patterns tried in order, first
`re.search` hit winning (the converters never raise on a capture of this
shape, so the `except: continue` arm is vacuous). -/
def currencySearch (s2 : List Char) : Option ℚ :=
  match reFirst pat1At s2 with
  | some v => some v
  | none =>
    match reFirst pat2At s2 with
    | some v => some v
    | none =>
      match reFirst pat3At s2 with
      | some v => some v
      | none =>
        match reFirst pat4At s2 with
        | some v => some v
        | none =>
          match reFirst pat5At s2 with
          | some v => some v
          | none => reFirst pat6At s2

/-- The loop over `self.percentage_patterns`. -/
def percentageSearch (s1 : List Char) : Option ℚ :=
  match reFirst patPct1At s1 with
  | some v => some v
  | none => reFirst patPct2At s1

/-- The loop over `self.runway_patterns`. -/
def runwaySearch (s1 : List Char) : Option ℚ :=
  match reFirst patMonthsAt s1 with
  | some v => some v
  | none => reFirst patYearsAt s1

/-- `parse_currency`: the falsy/`'N/A'` guard, `strip`, the qualitative
(`increased`/`improved`) early `None`, the qualifier `re.sub` + `strip`,
then the pattern loop. -/
def parse_currency (value : String) : Option ℚ :=
  if value = "" ∨ value = "N/A" then none
  else
    let s1 := pstrip value.toList
    if containsSub "increased".toList (pyLower s1) ||
        containsSub "improved".toList (pyLower s1) then none
    else currencySearch (pstrip (removeQualifiers s1))

/-- `parse_percentage`. -/
def parse_percentage (value : String) : Option ℚ :=
  if value = "" ∨ value = "N/A" then none
  else percentageSearch (pstrip value.toList)

/-- `parse_runway` (standardized months). -/
def parse_runway (value : String) : Option ℚ :=
  if value = "" ∨ value = "N/A" then none
  else runwaySearch (pstrip value.toList)

/-- Round half to even, the tie-breaking of Python float formatting. -/
def roundHalfEven (q : ℚ) : ℤ :=
  let f := qfloor q
  let r := qadd q (-((f : ℤ) : ℚ))
  if r < mkRat 1 2 then f
  else if mkRat 1 2 < r then f + 1
  else if f % 2 = 0 then f else f + 1

/-- Digits of `f"{q:.1f}"`. -/
def formatFixed1 (q : ℚ) : List Char :=
  let n := roundHalfEven (qmulN q 10)
  (if n < 0 then ['-'] else []) ++
    digitsOfNat (n.natAbs / 10) ++ '.' :: [digitChar (n.natAbs % 10)]

/-- Digits of `f"{q:.0f}"`. -/
def formatFixed0 (q : ℚ) : List Char :=
  let n := roundHalfEven q
  (if n < 0 then ['-'] else []) ++ digitsOfNat n.natAbs

/-- Thousands separators of the `,` format spec, grouping from the right
(input reversed). -/
def commasRev : List Char → List Char
  | a :: b :: c :: rest =>
    match rest with
    | [] => [a, b, c]
    | _ :: _ => a :: b :: c :: ',' :: commasRev rest
  | l => l

/-- Digit string with thousands separators. -/
def withCommas (ds : List Char) : List Char := (commasRev ds.reverse).reverse

/-- Digits of `f"{q:,.0f}"`. -/
def formatCommas0 (q : ℚ) : List Char :=
  let n := roundHalfEven q
  (if n < 0 then ['-'] else []) ++ withCommas (digitsOfNat n.natAbs)

/-- `format_currency` on a present value: `$X.YM` from one million up,
`$XK` from one thousand up, else `$X` with thousands separators. -/
def formatCurrency (value : ℚ) : String :=
  if value ≥ 1000000 then
    String.mk ('$' :: formatFixed1 (qdivN value 1000000) ++ ['M'])
  else if value ≥ 1000 then
    String.mk ('$' :: formatFixed0 (qdivN value 1000) ++ ['K'])
  else String.mk ('$' :: formatCommas0 value)

/-- `format_percentage` on a present value: `f"{value:+.1f}%"` (an explicit
sign; a negative value rounding to zero keeps the minus sign, as the
float `-0.0` does). -/
def formatPercentage (value : ℚ) : String :=
  let n := roundHalfEven (qmulN value 10)
  let sign := if n < 0 ∨ (n = 0 ∧ value < 0) then '-' else '+'
  String.mk (sign :: digitsOfNat (n.natAbs / 10) ++
    '.' :: digitChar (n.natAbs % 10) :: ['%'])

/-- `format_runway` on a present value: years with one decimal from twelve
months up, else whole months. -/
def formatRunway (value : ℚ) : String :=
  if value ≥ 12 then String.mk (formatFixed1 (qdivN value 12) ++ " years".toList)
  else String.mk (formatFixed0 value ++ " months".toList)

/-- `format_currency` with the `None` guard. -/
def format_currency (value : Option ℚ) : Option String := value.map formatCurrency

/-- `format_percentage` with the `None` guard. -/
def format_percentage (value : Option ℚ) : Option String :=
  value.map formatPercentage

/-- `format_runway` with the `None` guard. -/
def format_runway (value : Option ℚ) : Option String := value.map formatRunway


/-! ## Claim C8 -/

/-- C8 counterexample — the qualitative-language guard fires before any
pattern is tried and regardless of numbers: `"increased to $5M"` contains
the perfectly recognizable amount `$5M` (parsed to 5,000,000 in isolation),
yet `parse_currency` returns `None` on it. -/
theorem parse_currency_qualitative_counterexample :
    parse_currency "$5M" = some 5000000 ∧
    containsSub "$5M".toList "increased to $5M".toList = true ∧
    parse_currency "increased to $5M" = none := by
  decide

/-- C8 (amended) — `parse_currency` returns null whenever the stripped input
contains `increased` or `improved` (case-insensitively), with or without a
number — the guard precedes all pattern matching; beyond that, null arises
only from the falsy/`'N/A'` guard or from all six patterns failing.  In
particular `"increased to $5M"` yields null although `"$5M"` alone parses
to 5,000,000. -/
theorem parse_currency_qualitative (s : String)
    (h : containsSub "increased".toList (pyLower (pstrip s.toList)) = true ∨
      containsSub "improved".toList (pyLower (pstrip s.toList)) = true) :
    parse_currency s = none ∧
    parse_currency "$5M" = some 5000000 := by
  refine ⟨?_, by decide⟩
  unfold parse_currency
  split
  · rfl
  · rw [if_pos (by
      rcases h with h | h
      · simp only [Bool.or_eq_true]
        exact Or.inl h
      · simp only [Bool.or_eq_true]
        exact Or.inr h)]

/-- Witness for C8 (amended) at the qualitative input of the claim. -/
theorem parse_currency_qualitative_witness :
    parse_currency "increased to $5M" = none ∧
    parse_currency "$5M" = some 5000000 :=
  parse_currency_qualitative "increased to $5M" (Or.inl (by decide))

/-! ## Financial metrics persistence (`pipeline/financial_extractor.py`,
`database/financial_models.py`) -/

/-- The fields of the parsed oracle JSON that `save_financial_metrics`
reads with `.get` (absent keys give `None`). -/
structure OracleMetrics where
  reporting_period : Option String := none
  reporting_date : Option String := none
  mrr : Option String := none
  arr : Option String := none
  qrr : Option String := none
  total_revenue : Option String := none
  gross_revenue : Option String := none
  net_revenue : Option String := none
  mrr_growth : Option String := none
  arr_growth : Option String := none
  revenue_growth_yoy : Option String := none
  revenue_growth_mom : Option String := none
  cash_balance : Option String := none
  net_burn : Option String := none
  gross_burn : Option String := none
  runway_months : Option String := none
  gross_margin : Option String := none
  ebitda : Option String := none
  ebitda_margin : Option String := none
  net_income : Option String := none
  customer_count : Option String := none
  new_customers : Option String := none
  churn_rate : Option String := none
  ltv : Option String := none
  cac : Option String := none
  team_size : Option String := none
  bookings : Option String := none
  pipeline : Option String := none
  key_highlights : Option String := none
  key_challenges : Option String := none
  funding_status : Option String := none
  extraction_confidence : Option String := none
deriving DecidableEq, Repr

/-- `source_info` of `save_financial_metrics`. -/
structure SourceInfo where
  type_ : Option String := none
  filename : Option String := none
deriving DecidableEq, Repr

/-- A row of the `financial_metrics` table (`database/financial_models.py`):
every metric column is a plain string (`# stored as strings to preserve
formatting like "$1.2M", "~$8.000M"`); there are no numeric or normalized
columns.  `extracted_date` (a database-side `utcnow` default the saver never
sets) is omitted. -/
structure FinancialMetrics where
  company_id : Nat
  email_update_id : Option Nat
  reporting_period : Option String
  reporting_date : Option (Nat × Nat × Nat)
  mrr : Option String
  arr : Option String
  qrr : Option String
  total_revenue : Option String
  gross_revenue : Option String
  net_revenue : Option String
  mrr_growth : Option String
  arr_growth : Option String
  revenue_growth_yoy : Option String
  revenue_growth_mom : Option String
  cash_balance : Option String
  net_burn : Option String
  gross_burn : Option String
  runway_months : Option String
  gross_margin : Option String
  ebitda : Option String
  ebitda_margin : Option String
  net_income : Option String
  customer_count : Option String
  new_customers : Option String
  churn_rate : Option String
  ltv : Option String
  cac : Option String
  team_size : Option String
  bookings : Option String
  pipeline : Option String
  key_highlights : Option String
  key_challenges : Option String
  funding_status : Option String
  source_type : String
  source_file : Option String
  extraction_confidence : String
  extraction_notes : String
deriving DecidableEq, Repr

/-- `datetime.strptime(s, '%Y-%m-%d')` as year/month/day (exact
calendar-day validation approximated by range checks; no claim depends on
the date edge cases). -/
def parseDateYMD (s : String) : Option (Nat × Nat × Nat) :=
  match s.splitOn "-" with
  | [y, m, d] =>
    if (y.toList != []) && y.toList.all Char.isDigit &&
        (m.toList != []) && m.toList.all Char.isDigit &&
        (d.toList != []) && d.toList.all Char.isDigit then
      let mn := natOfDigits m.toList
      let dn := natOfDigits d.toList
      if 1 ≤ mn ∧ mn ≤ 12 ∧ 1 ≤ dn ∧ dn ≤ 31 then
        some (natOfDigits y.toList, mn, dn)
      else none
    else none
  | _ => none

/-- `save_financial_metrics`: the record construction — every metric column
receives the oracle's raw string unchanged; `reporting_date` is parsed when
truthy and not `'N/A'`; `source_type` defaults to `'email'`,
`extraction_confidence` to `'medium'`. -/
def save_financial_metrics (metrics_data : OracleMetrics) (company_id : Nat)
    (email_update_id : Option Nat) (source_info : SourceInfo) :
    FinancialMetrics :=
  let stype := source_info.type_.getD "email"
  { company_id := company_id
    email_update_id := email_update_id
    reporting_period := metrics_data.reporting_period
    reporting_date :=
      match metrics_data.reporting_date with
      | some v => if v ≠ "" ∧ v ≠ "N/A" then parseDateYMD v else none
      | none => none
    mrr := metrics_data.mrr
    arr := metrics_data.arr
    qrr := metrics_data.qrr
    total_revenue := metrics_data.total_revenue
    gross_revenue := metrics_data.gross_revenue
    net_revenue := metrics_data.net_revenue
    mrr_growth := metrics_data.mrr_growth
    arr_growth := metrics_data.arr_growth
    revenue_growth_yoy := metrics_data.revenue_growth_yoy
    revenue_growth_mom := metrics_data.revenue_growth_mom
    cash_balance := metrics_data.cash_balance
    net_burn := metrics_data.net_burn
    gross_burn := metrics_data.gross_burn
    runway_months := metrics_data.runway_months
    gross_margin := metrics_data.gross_margin
    ebitda := metrics_data.ebitda
    ebitda_margin := metrics_data.ebitda_margin
    net_income := metrics_data.net_income
    customer_count := metrics_data.customer_count
    new_customers := metrics_data.new_customers
    churn_rate := metrics_data.churn_rate
    ltv := metrics_data.ltv
    cac := metrics_data.cac
    team_size := metrics_data.team_size
    bookings := metrics_data.bookings
    pipeline := metrics_data.pipeline
    key_highlights := metrics_data.key_highlights
    key_challenges := metrics_data.key_challenges
    funding_status := metrics_data.funding_status
    source_type := stype
    source_file := source_info.filename
    extraction_confidence := metrics_data.extraction_confidence.getD "medium"
    extraction_notes := "Extracted via Claude AI from " ++ stype }

/-- The ~25 named metric columns of a stored record, in table order. -/
def storedMetricFields (r : FinancialMetrics) : List (Option String) :=
  [r.mrr, r.arr, r.qrr, r.total_revenue, r.gross_revenue, r.net_revenue,
   r.mrr_growth, r.arr_growth, r.revenue_growth_yoy, r.revenue_growth_mom,
   r.cash_balance, r.net_burn, r.gross_burn, r.runway_months,
   r.gross_margin, r.ebitda, r.ebitda_margin, r.net_income,
   r.customer_count, r.new_customers, r.churn_rate, r.ltv, r.cac,
   r.team_size, r.bookings, r.pipeline]

/-- Every string stored anywhere on a record (the metric columns plus the
string-typed context and source columns). -/
def allStoredStrings (r : FinancialMetrics) : List String :=
  ((r.reporting_period :: storedMetricFields r) ++
    [r.key_highlights, r.key_challenges, r.funding_status,
      r.source_file]).filterMap id ++
  [r.source_type, r.extraction_confidence, r.extraction_notes]

/-- A parse function applied to a possibly-`NULL` column, as
`standardize_metric_values` does via `getattr` (Python `None` falls into
the falsy guard of the parser). -/
def parseOptStr (p : String → Option ℚ) (v : Option String) : Option ℚ :=
  v.bind p

/-- `standardize_metric_values` (`utils/financial_formatter.py`): for each
listed field, the raw stored string, the parsed numeric value and the
canonical formatted string, computed on demand from the record — the
Python dict keys `<field>_raw`/`<field>_value`/`<field>_formatted`
flattened into one row per field. -/
def standardize_metric_values (r : FinancialMetrics) :
    List (String × Option String × Option ℚ × Option String) :=
  (["mrr", "arr", "qrr", "total_revenue", "gross_revenue",
    "net_revenue"].zip
    [r.mrr, r.arr, r.qrr, r.total_revenue, r.gross_revenue,
      r.net_revenue]).map (fun fv =>
        (fv.1, fv.2, parseOptStr parse_currency fv.2,
          format_currency (parseOptStr parse_currency fv.2))) ++
  (["mrr_growth", "arr_growth", "revenue_growth_yoy",
    "revenue_growth_mom"].zip
    [r.mrr_growth, r.arr_growth, r.revenue_growth_yoy,
      r.revenue_growth_mom]).map (fun fv =>
        (fv.1, fv.2, parseOptStr parse_percentage fv.2,
          format_percentage (parseOptStr parse_percentage fv.2))) ++
  (["cash_balance", "net_burn", "gross_burn"].zip
    [r.cash_balance, r.net_burn, r.gross_burn]).map (fun fv =>
      (fv.1, fv.2, parseOptStr parse_currency fv.2,
        format_currency (parseOptStr parse_currency fv.2))) ++
  [("runway_months", r.runway_months, parseOptStr parse_runway r.runway_months,
    format_runway (parseOptStr parse_runway r.runway_months))] ++
  (["gross_margin", "ebitda_margin"].zip
    [r.gross_margin, r.ebitda_margin]).map (fun fv =>
      (fv.1, fv.2, parseOptStr parse_percentage fv.2,
        format_percentage (parseOptStr parse_percentage fv.2))) ++
  (["ebitda", "net_income"].zip [r.ebitda, r.net_income]).map (fun fv =>
    (fv.1, fv.2, parseOptStr parse_currency fv.2,
      format_currency (parseOptStr parse_currency fv.2)))

/-! ## Claim C4 -/

/-- C4 counterexample — a saved record holds each metric once, as the raw
oracle string only: with `mrr = "~$8.000M"` the Value-Normalizer pair is
computable (`8,000,000` and `"$8.0M"`) but neither representation appears
anywhere on the stored record — no column of the `financial_metrics` row
carries the normalized numeric value or the canonical display string. -/
theorem metrics_dual_storage_counterexample :
    (save_financial_metrics { mrr := some "~$8.000M" } 1 (some 2)
        ⟨some "email", none⟩).mrr = some "~$8.000M" ∧
    parse_currency "~$8.000M" = some 8000000 ∧
    format_currency (parse_currency "~$8.000M") = some "$8.0M" ∧
    "$8.0M" ∉ allStoredStrings
      (save_financial_metrics { mrr := some "~$8.000M" } 1 (some 2)
        ⟨some "email", none⟩) ∧
    "8000000" ∉ allStoredStrings
      (save_financial_metrics { mrr := some "~$8.000M" } 1 (some 2)
        ⟨some "email", none⟩) ∧
    "8000000.0" ∉ allStoredStrings
      (save_financial_metrics { mrr := some "~$8.000M" } 1 (some 2)
        ⟨some "email", none⟩) := by
  decide

/-- C4 (amended) — each of the ~25 named metric fields is persisted once,
as the oracle's raw free-text string unchanged; the normalized numeric
value and the canonical display string are not stored but derived on
demand by `standardize_metric_values`, which recomputes, for every
normalized field of any saved record, exactly the raw stored string
together with the Value-Normalizer parse of it and the canonical format of
that parse. -/
theorem metrics_single_storage (d : OracleMetrics) (cid : Nat)
    (eid : Option Nat) (src : SourceInfo) :
    storedMetricFields (save_financial_metrics d cid eid src) =
      [d.mrr, d.arr, d.qrr, d.total_revenue, d.gross_revenue, d.net_revenue,
       d.mrr_growth, d.arr_growth, d.revenue_growth_yoy, d.revenue_growth_mom,
       d.cash_balance, d.net_burn, d.gross_burn, d.runway_months,
       d.gross_margin, d.ebitda, d.ebitda_margin, d.net_income,
       d.customer_count, d.new_customers, d.churn_rate, d.ltv, d.cac,
       d.team_size, d.bookings, d.pipeline] ∧
    (standardize_metric_values (save_financial_metrics d cid eid src)).map
        (fun row => row.2.1) =
      [d.mrr, d.arr, d.qrr, d.total_revenue, d.gross_revenue, d.net_revenue,
       d.mrr_growth, d.arr_growth, d.revenue_growth_yoy, d.revenue_growth_mom,
       d.cash_balance, d.net_burn, d.gross_burn, d.runway_months,
       d.gross_margin, d.ebitda_margin, d.ebitda, d.net_income] ∧
    ∀ row ∈ standardize_metric_values (save_financial_metrics d cid eid src),
      (row.2.2.2 = format_currency row.2.2.1 ∨
        row.2.2.2 = format_percentage row.2.2.1 ∨
        row.2.2.2 = format_runway row.2.2.1) := by
  refine ⟨rfl, rfl, ?_⟩
  intro row hrow
  simp only [standardize_metric_values, List.mem_append, List.mem_map,
    List.mem_singleton] at hrow
  rcases hrow with ((((⟨fv, _, rfl⟩ | ⟨fv, _, rfl⟩) | ⟨fv, _, rfl⟩) | rfl) |
      ⟨fv, _, rfl⟩) | ⟨fv, _, rfl⟩
  · exact Or.inl rfl
  · exact Or.inr (Or.inl rfl)
  · exact Or.inl rfl
  · exact Or.inr (Or.inr rfl)
  · exact Or.inr (Or.inl rfl)
  · exact Or.inl rfl


/-! ## Digit-string lemmas -/

/-- The ten decimal digit characters. -/
def digitChars : List Char := ['0', '1', '2', '3', '4', '5', '6', '7', '8', '9']

theorem digitChar_mem {d : Nat} (h : d < 10) : digitChar d ∈ digitChars := by
  interval_cases d <;> decide

theorem digitVal_digitChar {d : Nat} (h : d < 10) : digitVal (digitChar d) = d := by
  interval_cases d <;> decide

theorem digitsAux_acc (fuel : Nat) :
    ∀ (n : Nat) (acc : List Char),
      digitsAux fuel n acc = digitsAux fuel n [] ++ acc := by
  induction fuel with
  | zero => intro n acc; rfl
  | succ f ih =>
    intro n acc
    by_cases hn : n = 0
    · subst hn; simp [digitsAux]
    · rw [digitsAux, digitsAux, if_neg hn, if_neg hn, ih (n / 10),
        ih (n / 10) [digitChar (n % 10)]]
      simp

theorem digitsAux_norm :
    ∀ (n f : Nat), n ≤ f → digitsAux f n [] = digitsAux n n [] := by
  intro n
  induction n using Nat.strong_induction_on with
  | _ n ih =>
    intro f hf
    by_cases hn : n = 0
    · subst hn
      cases f with
      | zero => rfl
      | succ g => simp [digitsAux]
    · rcases Nat.exists_eq_succ_of_ne_zero hn with ⟨m, rfl⟩
      rcases Nat.exists_eq_add_of_le hf with ⟨e, rfl⟩
      have hstep : m + 1 + e = (m + e) + 1 := by omega
      rw [hstep, digitsAux, digitsAux, if_neg hn, if_neg hn]
      have hlt : (m + 1) / 10 < m + 1 := Nat.div_lt_self (Nat.succ_pos m) (by norm_num)
      rw [digitsAux_acc (m + e), digitsAux_acc m]
      congr 1
      rw [ih ((m + 1) / 10) hlt (m + e) (by omega),
        ih ((m + 1) / 10) hlt m (by omega)]

theorem natOfDigits_append (xs : List Char) (c : Char) :
    natOfDigits (xs ++ [c]) = 10 * natOfDigits xs + digitVal c := by
  unfold natOfDigits
  rw [List.foldl_append]
  rfl

theorem natOfDigits_digitsAux :
    ∀ (n f : Nat), n ≤ f → natOfDigits (digitsAux f n []) = n := by
  intro n
  induction n using Nat.strong_induction_on with
  | _ n ih =>
    intro f hf
    by_cases hn : n = 0
    · subst hn
      cases f with
      | zero => rfl
      | succ g => simp [digitsAux, natOfDigits]
    · cases f with
      | zero => omega
      | succ g =>
        rw [digitsAux, if_neg hn, digitsAux_acc]
        have hlt : n / 10 < n := Nat.div_lt_self (Nat.pos_of_ne_zero hn) (by norm_num)
        rw [natOfDigits_append, ih (n / 10) hlt g (by omega),
          digitVal_digitChar (Nat.mod_lt n (by norm_num))]
        omega

theorem natOfDigits_digitsOfNat (n : Nat) : natOfDigits (digitsOfNat n) = n := by
  unfold digitsOfNat
  by_cases hn : n = 0
  · subst hn; decide
  · rw [if_neg hn]
    exact natOfDigits_digitsAux n n le_rfl

theorem digitsAux_mem :
    ∀ (f n : Nat) (acc : List Char), (∀ c ∈ acc, c ∈ digitChars) →
      ∀ c ∈ digitsAux f n acc, c ∈ digitChars := by
  intro f
  induction f with
  | zero => intro n acc hacc c hc; exact hacc c hc
  | succ g ih =>
    intro n acc hacc c hc
    rw [digitsAux] at hc
    split at hc
    · exact hacc c hc
    · refine ih (n / 10) _ ?_ c hc
      intro x hx
      rcases List.mem_cons.1 hx with rfl | hx
      · exact digitChar_mem (Nat.mod_lt n (by norm_num))
      · exact hacc x hx

theorem digitsOfNat_mem (n : Nat) : ∀ c ∈ digitsOfNat n, c ∈ digitChars := by
  unfold digitsOfNat
  by_cases hn : n = 0
  · subst hn; intro c hc; simp at hc; subst hc; decide
  · rw [if_neg hn]
    exact digitsAux_mem n n [] (by intro c hc; simp at hc)

theorem digitsOfNat_ne_nil (n : Nat) : digitsOfNat n ≠ [] := by
  unfold digitsOfNat
  by_cases hn : n = 0
  · subst hn; simp
  · rw [if_neg hn]
    rcases Nat.exists_eq_succ_of_ne_zero hn with ⟨m, rfl⟩
    rw [digitsAux, if_neg hn, digitsAux_acc]
    simp

theorem digitsAux_length :
    ∀ (k n f : Nat), n ≤ f → n < 10 ^ k → (digitsAux f n []).length ≤ k := by
  intro k
  induction k with
  | zero =>
    intro n f hf hk
    have : n = 0 := by simpa using hk
    subst this
    cases f with
    | zero => simp [digitsAux]
    | succ g => simp [digitsAux]
  | succ j ih =>
    intro n f hf hk
    by_cases hn : n = 0
    · subst hn
      cases f with
      | zero => simp [digitsAux]
      | succ g => simp [digitsAux]
    · cases f with
      | zero => omega
      | succ g =>
        rw [digitsAux, if_neg hn, digitsAux_acc]
        rw [List.length_append]
        have h1 : n / 10 < 10 ^ j :=
          Nat.div_lt_of_lt_mul (by rw [pow_succ] at hk; omega)
        have := ih (n / 10) g (by omega) h1
        simp only [List.length_cons, List.length_nil]
        omega

theorem digitsOfNat_length_le (k n : Nat) (h : n < 10 ^ k) (hk : 1 ≤ k) :
    (digitsOfNat n).length ≤ k := by
  unfold digitsOfNat
  by_cases hn : n = 0
  · subst hn; simpa using hk
  · rw [if_neg hn]
    exact digitsAux_length k n n le_rfl h


/-! ## Clean-input lemmas: on the strings the formatter emits, the
`strip`/qualitative/qualifier preprocessing of the parsers is the
identity. -/

/-- The characters canonical currency strings are made of. -/
def curChars : List Char := '$' :: '.' :: ',' :: '-' :: 'M' :: 'K' :: digitChars

/-- The characters canonical percentage strings are made of. -/
def pctChars : List Char := '+' :: '-' :: '.' :: '%' :: digitChars

/-- The characters canonical runway strings are made of. -/
def runChars : List Char :=
  '.' :: '-' :: ' ' :: 'y' :: 'e' :: 'a' :: 'r' :: 's' ::
    'm' :: 'o' :: 'n' :: 't' :: 'h' :: digitChars

theorem pstrip_eq_self {cs : List Char} (h : ∀ c ∈ cs, isSpaceC c = false) :
    pstrip cs = cs := by
  unfold pstrip
  have h1 : ∀ (l : List Char), (∀ c ∈ l, isSpaceC c = false) →
      l.dropWhile isSpaceC = l := by
    intro l hl
    cases l with
    | nil => rfl
    | cons a l => rw [List.dropWhile_cons_of_neg (by simp [hl a (by simp)])]
  rw [h1 cs h, h1 cs.reverse (by intro c hc; exact h c (List.mem_reverse.1 hc)),
    List.reverse_reverse]

theorem pstrip_eq_self_ends {c z : Char} {mid : List Char}
    (hc : isSpaceC c = false) (hz : isSpaceC z = false) :
    pstrip (c :: mid ++ [z]) = c :: mid ++ [z] := by
  unfold pstrip
  have h1 : List.dropWhile isSpaceC ((c :: mid) ++ [z]) = (c :: mid) ++ [z] := by
    rw [List.cons_append]
    exact List.dropWhile_cons_of_neg (by simp [hc])
  have h2 : ((c :: mid) ++ [z]).reverse = z :: (c :: mid).reverse := by simp
  have h3 : List.dropWhile isSpaceC (z :: (c :: mid).reverse) =
      z :: (c :: mid).reverse :=
    List.dropWhile_cons_of_neg (by simp [hz])
  rw [h1, h2, h3, ← h2, List.reverse_reverse]

theorem containsSub_false (w : List Char) (hd : Char) (hw : w.head? = some hd)
    {cs : List Char} (h : ∀ c ∈ cs, c ≠ hd) : containsSub w cs = false := by
  induction cs with
  | nil =>
    rcases w with _ | ⟨a, w⟩
    · simp at hw
    · rfl
  | cons c cs ih =>
    rcases w with _ | ⟨a, w⟩
    · simp at hw
    · simp only [Option.some.injEq, List.head?] at hw
      subst hw
      rw [containsSub]
      rw [ih (by intro x hx; exact h x (by simp [hx]))]
      have hca : (a == c) = false := by
        simp only [beq_eq_false_iff_ne, ne_eq]
        intro hac
        exact h c (by simp) hac.symm
      simp [List.isPrefixOf, hca]

theorem removeQualifiersGo_eq_self :
    ∀ (fuel : Nat) (b : Bool) (cs : List Char),
      (∀ c ∈ cs, c.toLower ≠ 'a' ∧ c ≠ '~') →
      removeQualifiersGo fuel b cs = cs := by
  intro fuel
  induction fuel with
  | zero => intro b cs h; rfl
  | succ f ih =>
    intro b cs h
    cases cs with
    | nil => rfl
    | cons c rest =>
      have hc := h c (by simp)
      rw [removeQualifiersGo]
      have hnt : (b && (c = '~' : Bool)) = false := by
        rcases b with _ | _
        · rfl
        · simp [hc.2]
      rw [hnt]
      have happrox : litCI "approximately".toList (c :: rest) = none := by
        simp only [litCI, String.toList]
        rw [if_neg (by simpa using hc.1)]
      have habout : litCI "about".toList (c :: rest) = none := by
        simp only [litCI, String.toList]
        rw [if_neg (by simpa using hc.1)]
      have haround : litCI "around".toList (c :: rest) = none := by
        simp only [litCI, String.toList]
        rw [if_neg (by simpa using hc.1)]
      simp only [Bool.false_eq_true, if_false, happrox, habout, haround]
      rw [ih false rest (by intro x hx; exact h x (by simp [hx]))]

theorem mk_ne_empty (c : Char) (cs : List Char) : String.mk (c :: cs) ≠ "" := by
  intro h
  have := congrArg String.data h
  simp at this

theorem mk_ne_NA {c : Char} (cs : List Char) (h : c ≠ 'N') :
    String.mk (c :: cs) ≠ "N/A" := by
  intro he
  have hdata := congrArg String.data he
  have : c :: cs = ['N', '/', 'A'] := hdata
  exact h (by injection this)

/-- Character-class facts needed by the currency preamble, checked over the
finite alphabet. -/
theorem curChars_facts : ∀ c ∈ curChars,
    isSpaceC c = false ∧ c.toLower ≠ 'i' ∧ c.toLower ≠ 'a' ∧ c ≠ '~' ∧
      c ≠ 'N' := by
  decide

theorem pctChars_facts : ∀ c ∈ pctChars, isSpaceC c = false ∧ c ≠ 'N' := by
  decide

theorem runChars_facts : ∀ c ∈ runChars, c ≠ 'N' := by
  decide

/-- On a nonempty all-`curChars` string, `parse_currency` is exactly the
pattern loop. -/
theorem parse_currency_clean {cs : List Char} (hne : cs ≠ [])
    (hmem : ∀ c ∈ cs, c ∈ curChars) :
    parse_currency (String.mk cs) = currencySearch cs := by
  rcases cs with _ | ⟨c, rest⟩
  · exact absurd rfl hne
  · have hfacts := fun x hx => curChars_facts x (hmem x hx)
    unfold parse_currency
    rw [if_neg (by
      push_neg
      exact ⟨mk_ne_empty c rest, mk_ne_NA rest (hfacts c (by simp)).2.2.2.2⟩)]
    have htolist : (String.mk (c :: rest)).toList = c :: rest := rfl
    rw [htolist]
    have hstrip : pstrip (c :: rest) = c :: rest :=
      pstrip_eq_self (by intro x hx; exact (hfacts x hx).1)
    rw [hstrip]
    have hinc : containsSub "increased".toList (pyLower (c :: rest)) = false := by
      refine containsSub_false _ 'i' (by decide) ?_
      intro x hx
      rcases List.mem_map.1 hx with ⟨y, hy, rfl⟩
      exact (hfacts y hy).2.1
    have himp : containsSub "improved".toList (pyLower (c :: rest)) = false := by
      refine containsSub_false _ 'i' (by decide) ?_
      intro x hx
      rcases List.mem_map.1 hx with ⟨y, hy, rfl⟩
      exact (hfacts y hy).2.1
    show (if (containsSub "increased".toList (pyLower (c :: rest)) ||
          containsSub "improved".toList (pyLower (c :: rest))) = true then none
        else currencySearch (pstrip (removeQualifiers (c :: rest)))) =
      currencySearch (c :: rest)
    rw [hinc, himp]
    simp only [Bool.or_self, Bool.false_eq_true, if_false]
    unfold removeQualifiers
    rw [removeQualifiersGo_eq_self _ _ _ (by
      intro x hx
      exact ⟨(hfacts x hx).2.2.1, (hfacts x hx).2.2.2.1⟩)]
    rw [hstrip]

/-- On a nonempty all-`pctChars` string, `parse_percentage` is exactly the
pattern loop. -/
theorem parse_percentage_clean {cs : List Char} (hne : cs ≠ [])
    (hmem : ∀ c ∈ cs, c ∈ pctChars) :
    parse_percentage (String.mk cs) = percentageSearch cs := by
  rcases cs with _ | ⟨c, rest⟩
  · exact absurd rfl hne
  · have hfacts := fun x hx => pctChars_facts x (hmem x hx)
    unfold parse_percentage
    rw [if_neg (by
      push_neg
      exact ⟨mk_ne_empty c rest, mk_ne_NA rest (hfacts c (by simp)).2⟩)]
    have htolist : (String.mk (c :: rest)).toList = c :: rest := rfl
    rw [htolist, pstrip_eq_self (by intro x hx; exact (hfacts x hx).1)]

/-- On a runway string with non-space first and last characters,
`parse_runway` is exactly the pattern loop. -/
theorem parse_runway_clean {c z : Char} {mid : List Char}
    (hc : isSpaceC c = false) (hz : isSpaceC z = false)
    (hmem : ∀ x ∈ c :: mid ++ [z], x ∈ runChars) :
    parse_runway (String.mk (c :: mid ++ [z])) =
      runwaySearch (c :: mid ++ [z]) := by
  unfold parse_runway
  rw [if_neg (by
    push_neg
    refine ⟨mk_ne_empty c _, mk_ne_NA _ ?_⟩
    exact runChars_facts c (hmem c (by simp)))]
  have htolist : (String.mk (c :: mid ++ [z])).toList = c :: mid ++ [z] := rfl
  rw [htolist, pstrip_eq_self_ends hc hz]


/-! ## Matcher evaluation lemmas -/

theorem dc_isDigit : ∀ c ∈ digitChars, c.isDigit = true := by decide

theorem head_eq_of_cons_eq {c d : Char} {cs ds : List Char}
    (h : c :: cs = d :: ds) : c = d := by
  have := congrArg List.head? h
  simpa using this

theorem takeWhile_digits_append {ds rest : List Char}
    (hds : ∀ c ∈ ds, c.isDigit = true)
    (hrest : ∀ c, rest.head? = some c → c.isDigit = false) :
    (ds ++ rest).takeWhile Char.isDigit = ds := by
  induction ds with
  | nil =>
    cases rest with
    | nil => rfl
    | cons r rs =>
      simp only [List.nil_append]
      exact List.takeWhile_cons_of_neg (by simp [hrest r rfl])
  | cons d ds ih =>
    simp only [List.cons_append]
    rw [List.takeWhile_cons_of_pos (by simp [hds d (by simp)])]
    rw [ih (fun c hc => hds c (by simp [hc]))]

theorem takeWhile_all_digits {t : List Char} (h : ∀ c ∈ t, c.isDigit = true) :
    t.takeWhile Char.isDigit = t := by
  have h2 : ∀ c : Char, (List.nil (α := Char)).head? = some c →
      c.isDigit = false := by
    intro c hc; simp at hc
  have := takeWhile_digits_append h h2
  simpa using this

theorem matchNum_eval (ds rest : List Char) (hne : ds ≠ [])
    (hds : ∀ c ∈ ds, c.isDigit = true)
    (hrest : ∀ c, rest.head? = some c → c.isDigit = false ∧ c ≠ '.') :
    matchNum (ds ++ rest) = some ((ds, []), rest) := by
  simp only [matchNum]
  rw [takeWhile_digits_append hds (fun c hc => (hrest c hc).1), List.drop_left]
  rw [if_neg hne]
  cases rest with
  | nil => rfl
  | cons r rs =>
    split
    · rename_i r2 heq
      exact absurd (head_eq_of_cons_eq heq) (hrest r rfl).2
    · rfl

theorem matchNum_eval_frac (ds fs rest : List Char) (hne : ds ≠ [])
    (hfne : fs ≠ []) (hds : ∀ c ∈ ds, c.isDigit = true)
    (hfs : ∀ c ∈ fs, c.isDigit = true)
    (hrest : ∀ c, rest.head? = some c → c.isDigit = false) :
    matchNum (ds ++ '.' :: (fs ++ rest)) = some ((ds, fs), rest) := by
  simp only [matchNum]
  rw [takeWhile_digits_append hds
    (by intro c hc; injection hc with h1; rw [← h1]; decide), List.drop_left]
  rw [if_neg hne]
  show (if List.takeWhile Char.isDigit (fs ++ rest) = [] then
      some ((ds, ([] : List Char)), '.' :: (fs ++ rest))
    else some ((ds, List.takeWhile Char.isDigit (fs ++ rest)),
      List.drop (List.takeWhile Char.isDigit (fs ++ rest)).length (fs ++ rest))) =
    some ((ds, fs), rest)
  rw [takeWhile_digits_append hfs hrest, List.drop_left, if_neg hfne]

theorem takeCommaGroups_no_comma {rest : List Char}
    (h : ∀ c, rest.head? = some c → c ≠ ',') :
    takeCommaGroups rest = ([], rest) := by
  cases rest with
  | nil => rfl
  | cons r rs =>
    unfold takeCommaGroups
    split
    · rename_i a b c r2 heq
      exact absurd (head_eq_of_cons_eq heq) (h r rfl)
    · rfl

theorem matchNumCommas_eval (ds rest : List Char) (hne : ds ≠ [])
    (hds : ∀ c ∈ ds, c.isDigit = true)
    (hrest : ∀ c, rest.head? = some c →
      c.isDigit = false ∧ c ≠ '.' ∧ c ≠ ',') :
    matchNumCommas (ds ++ rest) = some ((ds, []), rest) := by
  simp only [matchNumCommas]
  rw [takeWhile_digits_append hds (fun c hc => (hrest c hc).1), List.drop_left]
  rw [if_neg hne]
  rw [takeCommaGroups_no_comma (fun c hc => (hrest c hc).2.2)]
  cases rest with
  | nil => simp
  | cons r rs =>
    show (match r :: rs with
      | '.' :: r3 =>
        if List.takeWhile Char.isDigit r3 = [] then
          some ((ds ++ ([] : List Char), ([] : List Char)), r :: rs)
        else some ((ds ++ ([] : List Char), List.takeWhile Char.isDigit r3),
          List.drop (List.takeWhile Char.isDigit r3).length r3)
      | _ => some ((ds ++ ([] : List Char), ([] : List Char)), r :: rs)) =
      some ((ds, []), r :: rs)
    split
    · rename_i r2 heq
      exact absurd (head_eq_of_cons_eq heq) (hrest r rfl).2.1
    · simp

theorem reFirst_nil (m : List Char → Option α) : reFirst m [] = m [] := rfl

theorem reFirst_cons_some {m : List Char → Option α} {c : Char}
    {cs : List Char} {v : α} (h : m (c :: cs) = some v) :
    reFirst m (c :: cs) = some v := by
  simp only [reFirst, h]

theorem reFirst_cons_none {m : List Char → Option α} {c : Char}
    {cs : List Char} (h : m (c :: cs) = none) :
    reFirst m (c :: cs) = reFirst m cs := by
  simp only [reFirst, h]

theorem reFirst_none_pred (P : Char → Prop) (m : List Char → Option α)
    (hm : ∀ t : List Char, (∀ c ∈ t, P c) → m t = none) :
    ∀ cs : List Char, (∀ c ∈ cs, P c) → reFirst m cs = none := by
  intro cs
  induction cs with
  | nil => intro _; rw [reFirst_nil]; exact hm [] (by intro c hc; simp at hc)
  | cons c cs ih =>
    intro h
    rw [reFirst_cons_none (hm _ h)]
    exact ih (fun x hx => h x (by simp [hx]))

theorem pat1At_no_dollar {cs : List Char}
    (h : ∀ c, cs.head? = some c → c ≠ '$') : pat1At cs = none := by
  cases cs with
  | nil => rfl
  | cons c rest =>
    unfold pat1At
    split
    · rename_i r1 heq
      exact absurd (head_eq_of_cons_eq heq) (h c rfl)
    · rfl

theorem pat2At_no_dollar {cs : List Char}
    (h : ∀ c, cs.head? = some c → c ≠ '$') : pat2At cs = none := by
  cases cs with
  | nil => rfl
  | cons c rest =>
    unfold pat2At
    split
    · rename_i r1 heq
      exact absurd (head_eq_of_cons_eq heq) (h c rfl)
    · rfl

theorem pat4At_all_digits {t : List Char} (h : ∀ c ∈ t, c ∈ digitChars) :
    pat4At t = none := by
  cases t with
  | nil => rfl
  | cons c rest =>
    have hmn : matchNum (c :: rest) = some (((c :: rest), []), []) := by
      have h2 : ∀ x : Char, (List.nil (α := Char)).head? = some x →
          x.isDigit = false ∧ x ≠ '.' := by
        intro x hx; simp at hx
      have := matchNum_eval (c :: rest) [] (by simp)
        (fun x hx => dc_isDigit x (h x hx)) h2
      simpa using this
    simp only [pat4At, hmn]
    rfl

theorem pat5At_all_digits {t : List Char} (h : ∀ c ∈ t, c ∈ digitChars) :
    pat5At t = none := by
  cases t with
  | nil => rfl
  | cons c rest =>
    have hmn : matchNum (c :: rest) = some (((c :: rest), []), []) := by
      have h2 : ∀ x : Char, (List.nil (α := Char)).head? = some x →
          x.isDigit = false ∧ x ≠ '.' := by
        intro x hx; simp at hx
      have := matchNum_eval (c :: rest) [] (by simp)
        (fun x hx => dc_isDigit x (h x hx)) h2
      simpa using this
    simp only [pat5At, hmn]
    rfl

theorem matchNum_rest_subset {cs cap rest}
    (h : matchNum cs = some (cap, rest)) : rest ⊆ cs := by
  simp only [matchNum] at h
  split at h
  · exact absurd h (by simp)
  · split at h
    · rename_i r2 heq
      split at h
      · injection h with h1
        injection h1 with _ h2
        subst h2
        exact List.drop_subset _ _
      · injection h with h1
        injection h1 with _ h2
        subst h2
        intro x hx
        have hx2 : x ∈ '.' :: r2 := by
          refine List.mem_cons_of_mem _ ?_
          exact List.drop_subset _ _ hx
        rw [← heq] at hx2
        exact List.drop_subset _ _ hx2
    · injection h with h1
      injection h1 with _ h2
      subst h2
      exact List.drop_subset _ _

theorem litCI_none (w : List Char) (hd : Char) (hw : w.head? = some hd)
    {r : List Char} (hr : ∀ c, r.head? = some c → c.toLower ≠ hd) :
    litCI w r = none := by
  rcases w with _ | ⟨a, ws⟩
  · simp at hw
  · simp only [List.head?, Option.some.injEq] at hw
    subst hw
    cases r with
    | nil => rfl
    | cons c cs =>
      simp only [litCI]
      rw [if_neg (hr c rfl)]

theorem patMonthsAt_none {t : List Char} (h : ∀ c ∈ t, c.toLower ≠ 'm') :
    patMonthsAt t = none := by
  cases hmn : matchNum t with
  | none => simp [patMonthsAt, hmn]
  | some pr =>
    obtain ⟨cap, r1⟩ := pr
    have hsub : r1 ⊆ t := matchNum_rest_subset hmn
    have hlit : ∀ r : List Char, r ⊆ t →
        litCI "month".toList (skipWS r) = none := by
      intro r hr
      refine litCI_none _ 'm' (by decide) ?_
      intro c hc
      have hcr : c ∈ skipWS r := by
        cases hsk : skipWS r with
        | nil => rw [hsk] at hc; simp at hc
        | cons x xs =>
          rw [hsk] at hc
          injection hc with h1
          subst h1
          simp [hsk]
      have hmem : c ∈ r := (List.dropWhile_sublist isSpaceC).subset hcr
      exact h c (hr hmem)
    simp only [patMonthsAt, hmn]
    rcases r1 with _ | ⟨a, as⟩
    · rw [hlit [] (by intro x hx; simp at hx)]
    · by_cases ha : a = '+'
      · subst ha
        have hplus : (match '+' :: as with
            | '+' :: r => r
            | _ => '+' :: as) = as := rfl
        rw [hplus, hlit as (fun x hx => hsub (by simp [hx]))]
      · have hmatch : (match a :: as with
            | '+' :: r => r
            | _ => a :: as) = a :: as := by
          split
          · rename_i r heq
            exact absurd (head_eq_of_cons_eq heq) ha
          · rfl
        rw [hmatch, hlit (a :: as) hsub]


/-! ## Canonical-value round-trip: arithmetic and shape lemmas -/

theorem mkRat_half_eq : (mkRat 1 2 : ℚ) = 1 / 2 := by
  rw [Rat.mkRat_eq_div]
  norm_num

theorem roundHalfEven_int (m : ℤ) : roundHalfEven ((m : ℤ) : ℚ) = m := by
  unfold roundHalfEven
  have hf : qfloor ((m : ℤ) : ℚ) = m := by
    rw [qfloor_eq]
    exact Int.floor_intCast m
  rw [hf]
  show (if qadd ((m : ℤ) : ℚ) (-((m : ℤ) : ℚ)) < mkRat 1 2 then m
    else if mkRat 1 2 < qadd ((m : ℤ) : ℚ) (-((m : ℤ) : ℚ)) then m + 1
    else if m % 2 = 0 then m else m + 1) = m
  have hr : qadd ((m : ℤ) : ℚ) (-((m : ℤ) : ℚ)) = 0 := by
    rw [qadd_eq]; ring
  rw [hr]
  rw [if_pos (by rw [mkRat_half_eq]; norm_num)]

theorem natOfDigits_single (c : Char) : natOfDigits [c] = digitVal c := by
  unfold natOfDigits digitVal
  simp

theorem numCapToQ_nil (ds : List Char) :
    numCapToQ ds [] = (natOfDigits ds : ℚ) := by
  unfold numCapToQ
  rw [Rat.mkRat_eq_div]
  have h0 : natOfDigits ([] : List Char) = 0 := rfl
  simp [h0]

theorem numCapToQ_single (ds : List Char) (c : Char) :
    numCapToQ ds [c] = (natOfDigits ds : ℚ) + (digitVal c : ℚ) / 10 := by
  unfold numCapToQ
  rw [Rat.mkRat_eq_div, natOfDigits_single]
  simp only [List.length_singleton, pow_one]
  push_cast
  ring

theorem head?_mem {t : List Char} {c : Char} (h : t.head? = some c) : c ∈ t := by
  cases t with
  | nil => simp at h
  | cons a l =>
    injection h with h1
    subst h1
    simp

theorem dc_in_cur : ∀ c ∈ digitChars, c ∈ curChars := by decide

theorem dc_not_dollar : ∀ c ∈ digitChars, c ≠ '$' := by decide

theorem dc_not_m : ∀ c ∈ digitChars, c.toLower ≠ 'm' := by decide

/-- Step equation of `pat1At` on a `$`-headed input. -/
theorem pat1At_dollar (rest : List Char) :
    pat1At ('$' :: rest) =
      (match matchNum rest with
      | some (cap, r2) =>
        (match skipWS r2 with
        | c :: _ =>
          if c.toLower = 'm' then some (qmulN (numCapToQ cap.1 cap.2) 1000000)
          else none
        | [] => none)
      | none => none) := rfl

/-- Step equation of `pat2At` on a `$`-headed input. -/
theorem pat2At_dollar (rest : List Char) :
    pat2At ('$' :: rest) =
      (match matchNum rest with
      | some (cap, r2) =>
        (match skipWS r2 with
        | c :: _ =>
          if c.toLower = 'k' then some (qmulN (numCapToQ cap.1 cap.2) 1000)
          else none
        | [] => none)
      | none => none) := rfl

/-- Step equation of `pat3At` on a `$`-headed input. -/
theorem pat3At_dollar (rest : List Char) :
    pat3At ('$' :: rest) =
      (match matchNumCommas rest with
      | some (cap, _) => some (numCapToQ cap.1 cap.2)
      | none => none) := rfl

theorem reFirst_pat1At_none_digits {rest : List Char}
    (h : ∀ c ∈ rest, c ≠ '$') (h1 : pat1At ('$' :: rest) = none) :
    reFirst pat1At ('$' :: rest) = none := by
  rw [reFirst_cons_none h1]
  exact reFirst_none_pred (fun c => c ≠ '$') pat1At
    (fun t ht => pat1At_no_dollar (fun c hc => ht c (head?_mem hc))) rest h

theorem reFirst_pat2At_none_digits {rest : List Char}
    (h : ∀ c ∈ rest, c ≠ '$') (h1 : pat2At ('$' :: rest) = none) :
    reFirst pat2At ('$' :: rest) = none := by
  rw [reFirst_cons_none h1]
  exact reFirst_none_pred (fun c => c ≠ '$') pat2At
    (fun t ht => pat2At_no_dollar (fun c hc => ht c (head?_mem hc))) rest h

/-! ### The three canonical currency shapes -/

theorem formatCurrency_M (k : ℕ) (hk : 10 ≤ k) :
    formatCurrency ((k : ℚ) * 100000) =
      String.mk ('$' :: (digitsOfNat (k / 10) ++
        '.' :: digitChar (k % 10) :: ['M'])) := by
  have hge : ((k : ℚ) * 100000) ≥ 1000000 := by
    have hc : (10 : ℚ) ≤ (k : ℚ) := by exact_mod_cast hk
    nlinarith
  unfold formatCurrency
  rw [if_pos hge]
  have harg : qmulN (qdivN ((k : ℚ) * 100000) 1000000) 10 = ((k : ℤ) : ℚ) := by
    rw [qdivN_eq, qmulN_eq]
    push_cast
    field_simp
    ring
  unfold formatFixed1
  rw [harg, roundHalfEven_int]
  show String.mk (('$' :: ((if ((k : ℤ) : ℤ) < 0 then ['-'] else []) ++
      digitsOfNat (((k : ℤ) : ℤ).natAbs / 10) ++
      ['.', digitChar (((k : ℤ) : ℤ).natAbs % 10)])) ++ ['M']) = _
  rw [if_neg (by exact not_lt.2 (Int.natCast_nonneg k))]
  simp [Int.natAbs_ofNat]

theorem currency_M_value (k : ℕ) :
    qmulN (numCapToQ (digitsOfNat (k / 10)) [digitChar (k % 10)]) 1000000 =
      (k : ℚ) * 100000 := by
  rw [numCapToQ_single, natOfDigits_digitsOfNat,
    digitVal_digitChar (Nat.mod_lt k (by norm_num)), qmulN_eq]
  have h10 : ((k / 10 : ℕ) : ℚ) * 10 + ((k % 10 : ℕ) : ℚ) = (k : ℚ) := by
    exact_mod_cast (by omega : k / 10 * 10 + k % 10 = k)
  push_cast
  linear_combination (100000 : ℚ) * h10

theorem parse_format_currency_M (k : ℕ) (hk : 10 ≤ k) :
    parse_currency (formatCurrency ((k : ℚ) * 100000)) =
      some ((k : ℚ) * 100000) := by
  rw [formatCurrency_M k hk]
  have hDne := digitsOfNat_ne_nil (k / 10)
  have hDmem := digitsOfNat_mem (k / 10)
  have hdmem : digitChar (k % 10) ∈ digitChars :=
    digitChar_mem (Nat.mod_lt k (by norm_num))
  have hclean : parse_currency (String.mk ('$' :: (digitsOfNat (k / 10) ++
      '.' :: digitChar (k % 10) :: ['M']))) =
      currencySearch ('$' :: (digitsOfNat (k / 10) ++
        '.' :: digitChar (k % 10) :: ['M'])) := by
    refine parse_currency_clean (by simp) ?_
    intro c hc
    rcases List.mem_cons.1 hc with rfl | hc
    · decide
    · rcases List.mem_append.1 hc with hc | hc
      · exact dc_in_cur c (hDmem c hc)
      · rcases List.mem_cons.1 hc with rfl | hc
        · decide
        · rcases List.mem_cons.1 hc with rfl | hc
          · exact dc_in_cur _ hdmem
          · simp only [List.mem_singleton] at hc
            subst hc
            decide
  rw [hclean]
  have hmn : matchNum (digitsOfNat (k / 10) ++
      '.' :: (([digitChar (k % 10)]) ++ ['M'])) =
      some ((digitsOfNat (k / 10), [digitChar (k % 10)]), ['M']) := by
    refine matchNum_eval_frac _ _ _ hDne (by simp)
      (fun c hc => dc_isDigit c (hDmem c hc))
      (by intro c hc; simp only [List.mem_singleton] at hc; subst hc
          exact dc_isDigit _ hdmem)
      (by intro c hc; cases hc; decide)
  have hp1 : pat1At ('$' :: (digitsOfNat (k / 10) ++
      '.' :: digitChar (k % 10) :: ['M'])) =
      some (qmulN (numCapToQ (digitsOfNat (k / 10)) [digitChar (k % 10)])
        1000000) := by
    rw [pat1At_dollar]
    have hshape : digitsOfNat (k / 10) ++ '.' :: digitChar (k % 10) :: ['M'] =
        digitsOfNat (k / 10) ++ '.' :: (([digitChar (k % 10)]) ++ ['M']) := by
      simp
    rw [hshape, hmn]
    rfl
  unfold currencySearch
  rw [reFirst_cons_some hp1, currency_M_value]


theorem formatCurrency_K (n : ℕ) (h1 : 1 ≤ n) (h2 : n ≤ 999) :
    formatCurrency ((n : ℚ) * 1000) = String.mk ('$' :: (digitsOfNat n ++ ['K'])) := by
  have hlt : ¬ ((n : ℚ) * 1000 ≥ 1000000) := by
    have hc : (n : ℚ) ≤ 999 := by exact_mod_cast h2
    push_neg
    nlinarith
  have hge : (n : ℚ) * 1000 ≥ 1000 := by
    have hc : (1 : ℚ) ≤ (n : ℚ) := by exact_mod_cast h1
    nlinarith
  unfold formatCurrency
  rw [if_neg hlt, if_pos hge]
  have harg : qdivN ((n : ℚ) * 1000) 1000 = ((n : ℤ) : ℚ) := by
    rw [qdivN_eq]
    push_cast
    field_simp
  unfold formatFixed0
  rw [harg, roundHalfEven_int]
  show String.mk (('$' :: ((if ((n : ℤ) : ℤ) < 0 then ['-'] else []) ++
      digitsOfNat (((n : ℤ) : ℤ).natAbs))) ++ ['K']) = _
  rw [if_neg (by exact not_lt.2 (Int.natCast_nonneg n))]
  simp [Int.natAbs_ofNat]

theorem parse_format_currency_K (n : ℕ) (h1 : 1 ≤ n) (h2 : n ≤ 999) :
    parse_currency (formatCurrency ((n : ℚ) * 1000)) = some ((n : ℚ) * 1000) := by
  rw [formatCurrency_K n h1 h2]
  have hDne := digitsOfNat_ne_nil n
  have hDmem := digitsOfNat_mem n
  have hclean : parse_currency (String.mk ('$' :: (digitsOfNat n ++ ['K']))) =
      currencySearch ('$' :: (digitsOfNat n ++ ['K'])) := by
    refine parse_currency_clean (by simp) ?_
    intro c hc
    rcases List.mem_cons.1 hc with rfl | hc
    · decide
    · rcases List.mem_append.1 hc with hc | hc
      · exact dc_in_cur c (hDmem c hc)
      · simp only [List.mem_singleton] at hc
        subst hc
        decide
  rw [hclean]
  have hmn : matchNum (digitsOfNat n ++ ['K']) =
      some ((digitsOfNat n, []), ['K']) :=
    matchNum_eval _ _ hDne (fun c hc => dc_isDigit c (hDmem c hc))
      (by intro c hc; cases hc; decide)
  have hnodollar : ∀ c ∈ digitsOfNat n ++ ['K'], c ≠ '$' := by
    intro c hc
    rcases List.mem_append.1 hc with hc | hc
    · exact dc_not_dollar c (hDmem c hc)
    · simp only [List.mem_singleton] at hc
      subst hc
      decide
  have hp1 : reFirst pat1At ('$' :: (digitsOfNat n ++ ['K'])) = none := by
    refine reFirst_pat1At_none_digits hnodollar ?_
    rw [pat1At_dollar, hmn]
    rfl
  have hp2 : pat2At ('$' :: (digitsOfNat n ++ ['K'])) =
      some (qmulN (numCapToQ (digitsOfNat n) []) 1000) := by
    rw [pat2At_dollar, hmn]
    rfl
  unfold currencySearch
  rw [hp1, reFirst_cons_some hp2, numCapToQ_nil, natOfDigits_digitsOfNat,
    qmulN_eq]
  push_cast
  ring_nf

theorem commasRev_short {l : List Char} (h : l.length ≤ 3) : commasRev l = l := by
  rcases l with _ | ⟨a, _ | ⟨b, _ | ⟨c, rest⟩⟩⟩
  · rfl
  · rfl
  · rfl
  · cases rest with
    | nil => rfl
    | cons d rest2 =>
      exfalso
      simp only [List.length_cons] at h
      omega

theorem withCommas_short {ds : List Char} (h : ds.length ≤ 3) :
    withCommas ds = ds := by
  unfold withCommas
  rw [commasRev_short (by simpa using h), List.reverse_reverse]

theorem formatCurrency_plain (n : ℕ) (h : n ≤ 999) :
    formatCurrency (n : ℚ) = String.mk ('$' :: digitsOfNat n) := by
  have hles : (n : ℚ) ≤ 999 := by exact_mod_cast h
  unfold formatCurrency
  rw [if_neg (by push_neg; nlinarith), if_neg (by push_neg; nlinarith)]
  unfold formatCommas0
  have harg : (n : ℚ) = ((n : ℤ) : ℚ) := by push_cast; rfl
  rw [harg, roundHalfEven_int]
  show String.mk ('$' :: ((if ((n : ℤ) : ℤ) < 0 then ['-'] else []) ++
      withCommas (digitsOfNat (((n : ℤ) : ℤ).natAbs)))) = _
  rw [if_neg (by exact not_lt.2 (Int.natCast_nonneg n))]
  have habs : ((n : ℤ) : ℤ).natAbs = n := Int.natAbs_ofNat n
  rw [habs, withCommas_short (digitsOfNat_length_le 3 n
    (lt_of_le_of_lt h (by norm_num)) (by norm_num))]
  simp

theorem parse_format_currency_plain (n : ℕ) (h : n ≤ 999) :
    parse_currency (formatCurrency (n : ℚ)) = some (n : ℚ) := by
  rw [formatCurrency_plain n h]
  have hDne := digitsOfNat_ne_nil n
  have hDmem := digitsOfNat_mem n
  have hclean : parse_currency (String.mk ('$' :: digitsOfNat n)) =
      currencySearch ('$' :: digitsOfNat n) := by
    refine parse_currency_clean (by simp) ?_
    intro c hc
    rcases List.mem_cons.1 hc with rfl | hc
    · decide
    · exact dc_in_cur c (hDmem c hc)
  rw [hclean]
  have hmn : matchNum (digitsOfNat n) = some ((digitsOfNat n, []), []) := by
    have := matchNum_eval (digitsOfNat n) [] hDne
      (fun c hc => dc_isDigit c (hDmem c hc))
      (by intro c hc; simp at hc)
    simpa using this
  have hnodollar : ∀ c ∈ digitsOfNat n, c ≠ '$' :=
    fun c hc => dc_not_dollar c (hDmem c hc)
  have hp1 : reFirst pat1At ('$' :: digitsOfNat n) = none := by
    refine reFirst_pat1At_none_digits hnodollar ?_
    rw [pat1At_dollar, hmn]
    rfl
  have hp2 : reFirst pat2At ('$' :: digitsOfNat n) = none := by
    refine reFirst_pat2At_none_digits hnodollar ?_
    rw [pat2At_dollar, hmn]
    rfl
  have hmnc : matchNumCommas (digitsOfNat n) = some ((digitsOfNat n, []), []) := by
    have := matchNumCommas_eval (digitsOfNat n) [] hDne
      (fun c hc => dc_isDigit c (hDmem c hc))
      (by intro c hc; simp at hc)
    simpa using this
  have hp3 : pat3At ('$' :: digitsOfNat n) =
      some (numCapToQ (digitsOfNat n) []) := by
    rw [pat3At_dollar, hmnc]
  unfold currencySearch
  rw [hp1, hp2, reFirst_cons_some hp3, numCapToQ_nil, natOfDigits_digitsOfNat]


/-! ### The canonical percentage shape -/

theorem dc_in_pct : ∀ c ∈ digitChars, c ∈ pctChars := by decide

theorem dc_in_run : ∀ c ∈ digitChars, c ∈ runChars := by decide

theorem dc_not_space : ∀ c ∈ digitChars, isSpaceC c = false := by decide

/-- Step equation of `patPct1At` on a `+`-headed input. -/
theorem patPct1At_plus (rest : List Char) :
    patPct1At ('+' :: rest) =
      (match matchNum rest with
      | some (cap, r1) =>
        (match skipWS r1 with
        | '%' :: _ => some (numCapToQ cap.1 cap.2)
        | _ => none)
      | none => none) := rfl

/-- Step equation of `patPct1At` on a `-`-headed input. -/
theorem patPct1At_minus (rest : List Char) :
    patPct1At ('-' :: rest) =
      (match matchNum rest with
      | some (cap, r1) =>
        (match skipWS r1 with
        | '%' :: _ => some (-(numCapToQ cap.1 cap.2))
        | _ => none)
      | none => none) := rfl

theorem formatPercentage_canonical (j : ℤ) :
    formatPercentage ((j : ℚ) / 10) =
      String.mk ((if j < 0 then '-' else '+') ::
        (digitsOfNat (j.natAbs / 10) ++ '.' :: digitChar (j.natAbs % 10) ::
          ['%'])) := by
  unfold formatPercentage
  have harg : qmulN ((j : ℚ) / 10) 10 = ((j : ℤ) : ℚ) := by
    rw [qmulN_eq]
    push_cast
    field_simp
  rw [harg, roundHalfEven_int]
  show String.mk ((if ((j : ℤ) : ℤ) < 0 ∨ (((j : ℤ) : ℤ) = 0 ∧ (j : ℚ) / 10 < 0)
      then '-' else '+') :: digitsOfNat (((j : ℤ) : ℤ).natAbs / 10) ++
      '.' :: digitChar (((j : ℤ) : ℤ).natAbs % 10) :: ['%']) = _
  have hsign : (if ((j : ℤ) : ℤ) < 0 ∨ (((j : ℤ) : ℤ) = 0 ∧ (j : ℚ) / 10 < 0)
      then '-' else '+') = (if j < 0 then '-' else '+') := by
    by_cases hj : j < 0
    · rw [if_pos (Or.inl hj), if_pos hj]
    · rw [if_neg ?ng, if_neg hj]
      case ng =>
        rintro (hlt | ⟨h0, hlt⟩)
        · exact hj hlt
        · rw [h0] at hlt
          simp at hlt
  rw [hsign]
  simp

theorem natAbs_div_mod_q (a : ℕ) :
    (numCapToQ (digitsOfNat (a / 10)) [digitChar (a % 10)]) = (a : ℚ) / 10 := by
  rw [numCapToQ_single, natOfDigits_digitsOfNat,
    digitVal_digitChar (Nat.mod_lt a (by norm_num))]
  have h10 : ((a / 10 : ℕ) : ℚ) * 10 + ((a % 10 : ℕ) : ℚ) = (a : ℚ) := by
    exact_mod_cast (by omega : a / 10 * 10 + a % 10 = a)
  linear_combination (1 / 10 : ℚ) * h10

theorem parse_format_percentage_canonical (j : ℤ) :
    parse_percentage (formatPercentage ((j : ℚ) / 10)) = some ((j : ℚ) / 10) := by
  rw [formatPercentage_canonical j]
  have hDne := digitsOfNat_ne_nil (j.natAbs / 10)
  have hDmem := digitsOfNat_mem (j.natAbs / 10)
  have hdmem : digitChar (j.natAbs % 10) ∈ digitChars :=
    digitChar_mem (Nat.mod_lt _ (by norm_num))
  have hmemall : ∀ c ∈ digitsOfNat (j.natAbs / 10) ++
      '.' :: digitChar (j.natAbs % 10) :: ['%'], c ∈ pctChars := by
    intro c hc
    rcases List.mem_append.1 hc with hc | hc
    · exact dc_in_pct c (hDmem c hc)
    · rcases List.mem_cons.1 hc with rfl | hc
      · decide
      · rcases List.mem_cons.1 hc with rfl | hc
        · exact dc_in_pct _ hdmem
        · simp only [List.mem_singleton] at hc
          subst hc
          decide
  have hmn : matchNum (digitsOfNat (j.natAbs / 10) ++
      '.' :: (([digitChar (j.natAbs % 10)]) ++ ['%'])) =
      some ((digitsOfNat (j.natAbs / 10), [digitChar (j.natAbs % 10)]),
        ['%']) := by
    refine matchNum_eval_frac _ _ _ hDne (by simp)
      (fun c hc => dc_isDigit c (hDmem c hc))
      (by intro c hc; simp only [List.mem_singleton] at hc; subst hc
          exact dc_isDigit _ hdmem)
      (by intro c hc; cases hc; decide)
  have hshape : digitsOfNat (j.natAbs / 10) ++
      '.' :: digitChar (j.natAbs % 10) :: ['%'] =
      digitsOfNat (j.natAbs / 10) ++
        '.' :: (([digitChar (j.natAbs % 10)]) ++ ['%']) := by
    simp
  by_cases hj : j < 0
  · rw [if_pos hj]
    have hclean := @parse_percentage_clean ('-' ::
      (digitsOfNat (j.natAbs / 10) ++ '.' :: digitChar (j.natAbs % 10) ::
        ['%'])) (by simp) (by
        intro c hc
        rcases List.mem_cons.1 hc with rfl | hc
        · decide
        · exact hmemall c hc)
    rw [hclean]
    have hp1 : patPct1At ('-' :: (digitsOfNat (j.natAbs / 10) ++
        '.' :: digitChar (j.natAbs % 10) :: ['%'])) =
        some (-(numCapToQ (digitsOfNat (j.natAbs / 10))
          [digitChar (j.natAbs % 10)])) := by
      rw [patPct1At_minus, hshape, hmn]
      rfl
    unfold percentageSearch
    rw [reFirst_cons_some hp1, natAbs_div_mod_q]
    have habs : ((j.natAbs : ℕ) : ℚ) = -(j : ℚ) := by
      rw [Int.cast_natAbs, abs_of_nonpos (by exact_mod_cast le_of_lt hj)]
      exact Int.cast_neg j
    rw [habs]
    ring_nf
  · rw [if_neg hj]
    have hclean := @parse_percentage_clean ('+' ::
      (digitsOfNat (j.natAbs / 10) ++ '.' :: digitChar (j.natAbs % 10) ::
        ['%'])) (by simp) (by
        intro c hc
        rcases List.mem_cons.1 hc with rfl | hc
        · decide
        · exact hmemall c hc)
    rw [hclean]
    have hp1 : patPct1At ('+' :: (digitsOfNat (j.natAbs / 10) ++
        '.' :: digitChar (j.natAbs % 10) :: ['%'])) =
        some (numCapToQ (digitsOfNat (j.natAbs / 10))
          [digitChar (j.natAbs % 10)]) := by
      rw [patPct1At_plus, hshape, hmn]
      rfl
    unfold percentageSearch
    rw [reFirst_cons_some hp1, natAbs_div_mod_q]
    have habs : ((j.natAbs : ℕ) : ℚ) = (j : ℚ) := by
      rw [Int.cast_natAbs, abs_of_nonneg (by exact_mod_cast not_lt.1 hj)]
    rw [habs]


/-! ### The two canonical runway shapes -/

theorem month_tail_in_run :
    ∀ c ∈ ([' ', 'm', 'o', 'n', 't', 'h'] : List Char), c ∈ runChars := by
  decide

theorem year_tail_in_run (d : Char) (hdm : d ∈ digitChars) :
    ∀ c ∈ ('.' :: d :: [' ', 'y', 'e', 'a', 'r'] : List Char), c ∈ runChars := by
  intro c hc
  rcases List.mem_cons.1 hc with rfl | hc
  · decide
  · rcases List.mem_cons.1 hc with rfl | hc
    · exact dc_in_run _ hdm
    · exact (by decide :
        ∀ x ∈ ([' ', 'y', 'e', 'a', 'r'] : List Char), x ∈ runChars) c hc

theorem years_str_not_m :
    ∀ c ∈ (' ' :: "years".toList : List Char), c.toLower ≠ 'm' := by
  decide

theorem formatRunway_months (n : ℕ) (h : n < 12) :
    formatRunway (n : ℚ) = String.mk (digitsOfNat n ++ " months".toList) := by
  unfold formatRunway
  rw [if_neg (by push_neg; exact_mod_cast h)]
  unfold formatFixed0
  have harg : (n : ℚ) = ((n : ℤ) : ℚ) := by push_cast; rfl
  rw [harg, roundHalfEven_int]
  show String.mk (((if ((n : ℤ) : ℤ) < 0 then ['-'] else []) ++
      digitsOfNat (((n : ℤ) : ℤ).natAbs)) ++ " months".toList) = _
  rw [if_neg (by exact not_lt.2 (Int.natCast_nonneg n))]
  simp [Int.natAbs_ofNat]

theorem parse_format_runway_months (n : ℕ) (h : n < 12) :
    parse_runway (formatRunway (n : ℚ)) = some (n : ℚ) := by
  rw [formatRunway_months n h]
  obtain ⟨hd, tl, hD⟩ := List.exists_cons_of_ne_nil (digitsOfNat_ne_nil n)
  have hDmem := digitsOfNat_mem n
  have hhd : hd ∈ digitChars := hDmem hd (by rw [hD]; simp)
  have htl : ∀ c ∈ tl, c ∈ digitChars := by
    intro c hc
    exact hDmem c (by rw [hD]; simp [hc])
  have hms : " months".toList = ' ' :: "months".toList := rfl
  have hshape : digitsOfNat n ++ " months".toList =
      hd :: (tl ++ [' ', 'm', 'o', 'n', 't', 'h']) ++ ['s'] := by
    rw [hD, hms]
    simp
  rw [hshape]
  have hmem3 : ∀ x ∈ hd :: (tl ++ [' ', 'm', 'o', 'n', 't', 'h']) ++ ['s'],
      x ∈ runChars := by
    intro x hx
    rcases List.mem_append.1 hx with hx | hx
    · rcases List.mem_cons.1 hx with rfl | hx
      · exact dc_in_run _ hhd
      · rcases List.mem_append.1 hx with hx | hx
        · exact dc_in_run _ (htl x hx)
        · exact month_tail_in_run x hx
    · simp only [List.mem_singleton] at hx
      subst hx
      decide
  rw [parse_runway_clean (dc_not_space hd hhd) (by decide) hmem3]
  rw [← hshape]
  have hmn : matchNum (digitsOfNat n ++ (' ' :: "months".toList)) =
      some ((digitsOfNat n, []), ' ' :: "months".toList) :=
    matchNum_eval _ _ (digitsOfNat_ne_nil n)
      (fun c hc => dc_isDigit c (hDmem c hc))
      (by intro c hc; cases hc; decide)
  have hpm : patMonthsAt (digitsOfNat n ++ (' ' :: "months".toList)) =
      some (numCapToQ (digitsOfNat n) []) := by
    simp only [patMonthsAt, hmn]
    rfl
  have hcons : digitsOfNat n ++ " months".toList =
      hd :: (tl ++ (' ' :: "months".toList)) := by
    rw [hD, hms]
    rfl
  unfold runwaySearch
  rw [hms] at hcons ⊢
  rw [hcons] at hpm ⊢
  rw [reFirst_cons_some hpm, numCapToQ_nil, natOfDigits_digitsOfNat]

theorem formatRunway_years (k : ℕ) (hk : 10 ≤ k) :
    formatRunway ((k : ℚ) * 12 / 10) =
      String.mk (digitsOfNat (k / 10) ++ '.' :: digitChar (k % 10) ::
        " years".toList) := by
  have hge : ((k : ℚ) * 12 / 10) ≥ 12 := by
    have hc : (10 : ℚ) ≤ (k : ℚ) := by exact_mod_cast hk
    rw [ge_iff_le, le_div_iff₀ (by norm_num)]
    nlinarith
  unfold formatRunway
  rw [if_pos hge]
  have harg : qmulN (qdivN ((k : ℚ) * 12 / 10) 12) 10 = ((k : ℤ) : ℚ) := by
    rw [qdivN_eq, qmulN_eq]
    push_cast
    field_simp
    ring
  unfold formatFixed1
  rw [harg, roundHalfEven_int]
  show String.mk (((if ((k : ℤ) : ℤ) < 0 then ['-'] else []) ++
      digitsOfNat (((k : ℤ) : ℤ).natAbs / 10) ++
      ['.', digitChar (((k : ℤ) : ℤ).natAbs % 10)]) ++ " years".toList) = _
  rw [if_neg (by exact not_lt.2 (Int.natCast_nonneg k))]
  simp [Int.natAbs_ofNat]

theorem parse_format_runway_years (k : ℕ) (hk : 10 ≤ k) :
    parse_runway (formatRunway ((k : ℚ) * 12 / 10)) =
      some ((k : ℚ) * 12 / 10) := by
  rw [formatRunway_years k hk]
  obtain ⟨hd, tl, hD⟩ := List.exists_cons_of_ne_nil (digitsOfNat_ne_nil (k / 10))
  have hDmem := digitsOfNat_mem (k / 10)
  have hhd : hd ∈ digitChars := hDmem hd (by rw [hD]; simp)
  have htl : ∀ c ∈ tl, c ∈ digitChars := by
    intro c hc
    exact hDmem c (by rw [hD]; simp [hc])
  have hdmem : digitChar (k % 10) ∈ digitChars :=
    digitChar_mem (Nat.mod_lt k (by norm_num))
  have hys : " years".toList = ' ' :: "years".toList := rfl
  have hshape : digitsOfNat (k / 10) ++ '.' :: digitChar (k % 10) ::
      " years".toList =
      hd :: (tl ++ '.' :: digitChar (k % 10) :: [' ', 'y', 'e', 'a', 'r']) ++
        ['s'] := by
    rw [hD, hys]
    simp
  rw [hshape]
  have hmem3 : ∀ x ∈ hd :: (tl ++ '.' :: digitChar (k % 10) ::
      [' ', 'y', 'e', 'a', 'r']) ++ ['s'], x ∈ runChars := by
    intro x hx
    rcases List.mem_append.1 hx with hx | hx
    · rcases List.mem_cons.1 hx with rfl | hx
      · exact dc_in_run _ hhd
      · rcases List.mem_append.1 hx with hx | hx
        · exact dc_in_run _ (htl x hx)
        · exact year_tail_in_run (digitChar (k % 10)) hdmem x hx
    · simp only [List.mem_singleton] at hx
      subst hx
      decide
  rw [parse_runway_clean (dc_not_space hd hhd) (by decide) hmem3]
  rw [← hshape]
  have hnom : ∀ c ∈ digitsOfNat (k / 10) ++ '.' :: digitChar (k % 10) ::
      " years".toList, c.toLower ≠ 'm' := by
    intro c hc
    rcases List.mem_append.1 hc with hc | hc
    · exact dc_not_m c (hDmem c hc)
    · rcases List.mem_cons.1 hc with rfl | hc
      · decide
      · rcases List.mem_cons.1 hc with rfl | hc
        · exact dc_not_m _ hdmem
        · rw [hys] at hc
          exact years_str_not_m c hc
  have hmonths : reFirst patMonthsAt (digitsOfNat (k / 10) ++
      '.' :: digitChar (k % 10) :: " years".toList) = none :=
    reFirst_none_pred (fun c => c.toLower ≠ 'm') patMonthsAt
      (fun t ht => patMonthsAt_none ht) _ hnom
  have hmn : matchNum (digitsOfNat (k / 10) ++
      '.' :: (([digitChar (k % 10)]) ++ " years".toList)) =
      some ((digitsOfNat (k / 10), [digitChar (k % 10)]),
        " years".toList) := by
    refine matchNum_eval_frac _ _ _ (digitsOfNat_ne_nil (k / 10)) (by simp)
      (fun c hc => dc_isDigit c (hDmem c hc))
      (by intro c hc; simp only [List.mem_singleton] at hc; subst hc
          exact dc_isDigit _ hdmem)
      (by intro c hc; rw [hys] at hc; cases hc; decide)
  have hshape2 : digitsOfNat (k / 10) ++ '.' :: digitChar (k % 10) ::
      " years".toList =
      digitsOfNat (k / 10) ++ '.' :: (([digitChar (k % 10)]) ++
        " years".toList) := by
    simp
  have hpy : patYearsAt (digitsOfNat (k / 10) ++
      '.' :: digitChar (k % 10) :: " years".toList) =
      some (qmulN (numCapToQ (digitsOfNat (k / 10)) [digitChar (k % 10)])
        12) := by
    rw [hshape2]
    simp only [patYearsAt, hmn]
    rfl
  unfold runwaySearch
  rw [hmonths]
  have hconsy : digitsOfNat (k / 10) ++ '.' :: digitChar (k % 10) ::
      " years".toList =
      hd :: (tl ++ '.' :: digitChar (k % 10) :: " years".toList) := by
    rw [hD]
    rfl
  rw [hconsy] at hpy ⊢
  rw [reFirst_cons_some hpy, numCapToQ_single, natOfDigits_digitsOfNat,
    digitVal_digitChar (Nat.mod_lt k (by norm_num)), qmulN_eq]
  have h10 : ((k / 10 : ℕ) : ℚ) * 10 + ((k % 10 : ℕ) : ℚ) = (k : ℚ) := by
    exact_mod_cast (by omega : k / 10 * 10 + k % 10 = k)
  change some _ = some _
  congr 1
  push_cast
  linear_combination (6 / 5 : ℚ) * h10

/-! ## Claim C6 -/

/-- A currency value expressible in the canonical output form of
`format_currency`: a one-decimal number of millions from a million up
(`$X.YM`), a whole number of thousands below that (`$NK`), or a plain
whole dollar amount below a thousand. -/
def CanonCurrency (v : ℚ) : Prop :=
  (∃ k : ℕ, 10 ≤ k ∧ v = (k : ℚ) * 100000) ∨
  (∃ n : ℕ, 1 ≤ n ∧ n ≤ 999 ∧ v = (n : ℚ) * 1000) ∨
  (∃ n : ℕ, n ≤ 999 ∧ v = (n : ℚ))

/-- A percentage value expressible in the canonical output form of
`format_percentage`: a signed one-decimal percentage. -/
def CanonPercentage (v : ℚ) : Prop :=
  ∃ j : ℤ, v = (j : ℚ) / 10

/-- A runway expressible in the canonical output form of `format_runway`:
a whole number of months below twelve, or a one-decimal number of years
from twelve months up. -/
def CanonRunway (v : ℚ) : Prop :=
  (∃ n : ℕ, n < 12 ∧ v = (n : ℚ)) ∨
  (∃ k : ℕ, 10 ≤ k ∧ v = (k : ℚ) * 12 / 10)

theorem parse_formatCurrency_canon (v : ℚ) (h : CanonCurrency v) :
    parse_currency (formatCurrency v) = some v := by
  rcases h with ⟨k, hk, rfl⟩ | ⟨n, h1, h2, rfl⟩ | ⟨n, h2, rfl⟩
  · exact parse_format_currency_M k hk
  · exact parse_format_currency_K n h1 h2
  · exact parse_format_currency_plain n h2

theorem parse_formatPercentage_canon (v : ℚ) (h : CanonPercentage v) :
    parse_percentage (formatPercentage v) = some v := by
  obtain ⟨j, rfl⟩ := h
  exact parse_format_percentage_canonical j

theorem parse_formatRunway_canon (v : ℚ) (h : CanonRunway v) :
    parse_runway (formatRunway v) = some v := by
  rcases h with ⟨n, hn, rfl⟩ | ⟨k, hk, rfl⟩
  · exact parse_format_runway_months n hn
  · exact parse_format_runway_years k hk

/-- C6: normalizer round-trip. For each of the three value kinds, whenever
parsing an input yields a value expressible in the canonical output form,
`format ∘ parse` is idempotent on its own output:
`format(parse(format(parse(x)))) = format(parse(x))` (the string `y` below
is `format(parse(x))`, and formatting the re-parse of `y` gives `y` back).
The claim's concrete examples also hold: `parse_currency "$1.2M"` is
1 200 000 and `formatCurrency 1200000 = "$1.2M"`;
`parse_runway "18 months"` is 18 and `formatRunway 18 = "1.5 years"`. -/
theorem normalizer_roundtrip :
    (∀ x v, parse_currency x = some v → CanonCurrency v →
      ∃ y, format_currency (parse_currency x) = some y ∧
        format_currency (parse_currency y) = some y) ∧
    (∀ x v, parse_percentage x = some v → CanonPercentage v →
      ∃ y, format_percentage (parse_percentage x) = some y ∧
        format_percentage (parse_percentage y) = some y) ∧
    (∀ x v, parse_runway x = some v → CanonRunway v →
      ∃ y, format_runway (parse_runway x) = some y ∧
        format_runway (parse_runway y) = some y) ∧
    parse_currency "$1.2M" = some 1200000 ∧
    formatCurrency 1200000 = "$1.2M" ∧
    parse_runway "18 months" = some 18 ∧
    formatRunway 18 = "1.5 years" := by
  refine ⟨?_, ?_, ?_, by decide, by decide, by decide, by decide⟩
  · intro x v hx hc
    refine ⟨formatCurrency v, ?_, ?_⟩
    · rw [hx]
      rfl
    · rw [parse_formatCurrency_canon v hc]
      rfl
  · intro x v hx hc
    refine ⟨formatPercentage v, ?_, ?_⟩
    · rw [hx]
      rfl
    · rw [parse_formatPercentage_canon v hc]
      rfl
  · intro x v hx hc
    refine ⟨formatRunway v, ?_, ?_⟩
    · rw [hx]
      rfl
    · rw [parse_formatRunway_canon v hc]
      rfl

/-- C6 witness: the round-trip theorem applied at the concrete input
`"$1.2M"`, whose parsed value 1 200 000 is canonical (twelve times a
hundred thousand). -/
theorem normalizer_roundtrip_witness :
    ∃ y, format_currency (parse_currency "$1.2M") = some y ∧
      format_currency (parse_currency y) = some y :=
  normalizer_roundtrip.1 "$1.2M" 1200000 (by decide)
    (Or.inl ⟨12, by norm_num, by norm_num⟩)

end Tweener
